import Mathlib

/-!
# Verification of the music streamer core data structures

Shallow embedding of the repository's core containers and their operations:
the priority party queue and listening-history stack (`stacks_queues_music.py`),
the doubly linked playlist, its catalog manager (`linked_list_playlist.py`),
and the playback orchestrator.  Linked-list nodes live in an arena
(`List SongNode`), with `next`/`previous`/cursor expressed as indices, so the
Python pointer graph is modelled exactly, including states where the pointer
structure is corrupted.  Loops of the source that follow pointers are modelled
with explicit fuel; definitions return `none`/fail only where the Python loop
would run forever or crash.
-/

/-- A song record, mirroring the dictionaries produced by
`MusicPlaylistManager._extract_song_info` (the fields the core containers
read: `title`, `artist`, `file_type`, `file_path`, `file_size`). -/
structure Song where
  title : String
  artist : String
  file_type : String
  file_path : String
  file_size : Nat
deriving DecidableEq

instance : Inhabited Song := ⟨⟨"", "", "", "", 0⟩⟩

/-- Python's `str.lower()`: lowercase character by character.  (Defined over
the character list so that it evaluates inside the kernel;
`String.toLower` is the same map but is defined by well-founded recursion
over byte positions and does not reduce definitionally.) -/
def pyLower (s : String) : String := ⟨s.data.map Char.toLower⟩

/-! ## Party queue (`PrioritySongQueue`) -/

/-- The ordering used by `self.queue.sort(key=lambda x: x[1], reverse=True)`:
descending, non-strict comparison on the priority component. -/
def prioGE (a b : Song × Int) : Prop := b.2 ≤ a.2

instance : DecidableRel prioGE := fun a b => inferInstanceAs (Decidable (b.2 ≤ a.2))

instance : IsTotal (Song × Int) prioGE := ⟨fun a b => le_total b.2 a.2⟩

instance : IsTrans (Song × Int) prioGE := ⟨fun _ _ _ h h' => le_trans h' h⟩

/-- Python's `list.sort` is a stable sort; any stable sort computes the same
output, so we model it with stable insertion sort on the same key. -/
def pySortByPrio (l : List (Song × Int)) : List (Song × Int) :=
  List.insertionSort prioGE l

namespace PrioritySongQueue

/-- Source `PrioritySongQueue.enqueue`: append `(song, priority)` then re-sort
descending by priority (stable). -/
def enqueue (queue : List (Song × Int)) (song : Song) (priority : Int) :
    List (Song × Int) :=
  pySortByPrio (queue ++ [(song, priority)])

/-- The scan inside `PrioritySongQueue.upvote`: find the first entry whose
title matches case-insensitively and bump its priority by one; `none` when no
entry matches. -/
def upvoteScan (song_title : String) : List (Song × Int) → Option (List (Song × Int))
  | [] => none
  | (song, priority) :: rest =>
    if pyLower song.title = pyLower song_title then
      some ((song, priority + 1) :: rest)
    else
      (upvoteScan song_title rest).map (fun r => (song, priority) :: r)

/-- Source `PrioritySongQueue.upvote`: on a match, bump the priority and re-sort,
returning `true`; otherwise leave the queue untouched and return `false`. -/
def upvote (queue : List (Song × Int)) (song_title : String) :
    Bool × List (Song × Int) :=
  match upvoteScan song_title queue with
  | some queue' => (true, pySortByPrio queue')
  | none => (false, queue)

end PrioritySongQueue

/-- One call against the party queue. -/
inductive PartyOp where
  | enq (song : Song) (priority : Int)
  | upv (title : String)

/-- Apply one party-queue call to the stored sequence. -/
def partyStep (queue : List (Song × Int)) : PartyOp → List (Song × Int)
  | .enq song priority => PrioritySongQueue.enqueue queue song priority
  | .upv title => (PrioritySongQueue.upvote queue title).2

/-- The stored sequence after a list of `enqueue`/`upvote` calls starting from
the empty queue. -/
def runParty (ops : List PartyOp) : List (Song × Int) :=
  ops.foldl partyStep []

/-- Position of the first `enq` of song `s` in an operation list
(`ops.length` when there is none): the order in which songs were originally
enqueued. -/
def firstEnqIdx (ops : List PartyOp) (s : Song) : Nat :=
  ops.findIdx (fun o => match o with
    | .enq s' _ => s' = s
    | .upv _ => false)

/-- Claim C1 as stated: after any sequence of calls the stored sequence is
non-increasing by priority, and among entries with equal priority the relative
original-enqueue order is preserved. -/
def partyStabilityClaim (ops : List PartyOp) : Prop :=
  (runParty ops).Pairwise (fun a b => b.2 ≤ a.2) ∧
    (runParty ops).Pairwise
      (fun a b => a.2 = b.2 → firstEnqIdx ops a.1 ≤ firstEnqIdx ops b.1)

instance (ops : List PartyOp) : Decidable (partyStabilityClaim ops) :=
  inferInstanceAs (Decidable (_ ∧ _))

/-! ## Listening history (`ListeningHistoryStack`) -/

/-- Python's substring test `sub in hay`, on the underlying character lists. -/
def strIn (sub hay : String) : Bool :=
  (List.range (hay.data.length + 1)).any
    (fun i => sub.data.isPrefixOf (hay.data.drop i))

/-- Source `ListeningHistoryStack.search_history`: keep the entries whose title or
artist contains the query case-insensitively, in storage (oldest-first)
order. -/
def search_history (stack : List Song) (query : String) : List Song :=
  stack.filter
    (fun song => strIn (pyLower query) (pyLower song.title) ||
      strIn (pyLower query) (pyLower song.artist))

/-! ## Playback orchestrator (`MusicPlayerStacksQueues.play_song`) -/

/-- The orchestrator state that `play_song` touches: the currently playing
song and the listening-history stack. -/
structure PlayerState where
  currently_playing : Option Song
  history : List Song
deriving DecidableEq

/-- Source `MusicPlayerStacksQueues.play_song`.  The external audio capability is a
parameter `load_and_play` keyed on the song's file path; `false` models
`pygame.mixer.music.load/play` raising `pygame.error`, in which case the
`except` clause resets `currently_playing` and the statements after the raise
(the assignment and the history push) never run. -/
def play_song (load_and_play : String → Bool) (st : PlayerState) (song : Song) :
    PlayerState :=
  if load_and_play song.file_path then
    { currently_playing := some song, history := st.history ++ [song] }
  else
    { st with currently_playing := none }

/-! ## Doubly linked playlist (`LinkedListPlaylist`)

Nodes are stored in an arena (`nodes : List SongNode`); a node's identity is
its arena index, so Python's reference comparisons (`self.current_node ==
current`) become index equality, while `song_data` comparisons stay value
equality.  `head`, `tail` and `current_node` are optional indices.  Removed
nodes simply become unreachable, as under Python's garbage collector. -/

/-- Source `SongNode`: payload plus optional next/previous indices. -/
structure SongNode where
  song_data : Song
  next : Option Nat
  previous : Option Nat
deriving DecidableEq

/-- The playlist object: arena, head/tail/current indices and the `size`
counter maintained by the Python code. -/
structure LinkedListPlaylist where
  nodes : List SongNode
  head : Option Nat
  tail : Option Nat
  current_node : Option Nat
  size : Nat
deriving DecidableEq

/-- Source `LinkedListPlaylist.__init__`. -/
def emptyPlaylist : LinkedListPlaylist :=
  { nodes := [], head := none, tail := none, current_node := none, size := 0 }

/-- Replace the node at index `i` (identity elsewhere). -/
def modifyIdx : List SongNode → Nat → (SongNode → SongNode) → List SongNode
  | [], _, _ => []
  | nd :: rest, 0, f => f nd :: rest
  | nd :: rest, Nat.succ i, f => nd :: modifyIdx rest i f

/-- Assignment `nodes[i].next = v`. -/
def setNext (p : LinkedListPlaylist) (i : Nat) (v : Option Nat) : LinkedListPlaylist :=
  { p with nodes := modifyIdx p.nodes i (fun nd => { nd with next := v }) }

/-- Assignment `nodes[i].previous = v`. -/
def setPrev (p : LinkedListPlaylist) (i : Nat) (v : Option Nat) : LinkedListPlaylist :=
  { p with nodes := modifyIdx p.nodes i (fun nd => { nd with previous := v }) }

/-- Follow a pointer field from an optional start index, collecting visited
indices, for at most `fuel` steps.  An invalid index stops the walk. -/
def chainD (nodes : List SongNode) (dir : SongNode → Option Nat) :
    Nat → Option Nat → List Nat
  | 0, _ => []
  | _ + 1, none => []
  | fuel + 1, some i =>
    match nodes.get? i with
    | none => []
    | some nd => i :: chainD nodes dir fuel (dir nd)

/-- Forward traversal from `head` (fuel: the arena size, enough for any
well-formed list). -/
def fwdChain (p : LinkedListPlaylist) : List Nat :=
  chainD p.nodes (fun nd => nd.next) p.nodes.length p.head

/-- Backward traversal from `tail`. -/
def bwdChain (p : LinkedListPlaylist) : List Nat :=
  chainD p.nodes (fun nd => nd.previous) p.nodes.length p.tail

/-- The song stored at arena index `i` (default song for invalid indices). -/
def songAtD (p : LinkedListPlaylist) (i : Nat) : Song :=
  ((p.nodes.get? i).map (fun nd => nd.song_data)).getD default

/-- The songs seen by a forward traversal. -/
def forwardSongs (p : LinkedListPlaylist) : List Song :=
  (fwdChain p).map (songAtD p)

/-- The case-insensitive title test `node.song_data['title'].lower() ==
target.lower()` at arena index `i`. -/
def titleMatches (nodes : List SongNode) (i : Nat) (target : String) : Bool :=
  match nodes.get? i with
  | none => false
  | some nd => pyLower nd.song_data.title == pyLower target

/-- Source `LinkedListPlaylist.is_empty`: `self.head is None`. -/
def is_empty (p : LinkedListPlaylist) : Bool := p.head == none

/-- Source `LinkedListPlaylist.add_song_at_end`. -/
def add_song_at_end (p : LinkedListPlaylist) (song : Song) : LinkedListPlaylist :=
  let newIdx := p.nodes.length
  if p.head = none then
    { nodes := p.nodes ++ [⟨song, none, none⟩], head := some newIdx,
      tail := some newIdx, current_node := some newIdx, size := p.size + 1 }
  else
    match p.tail with
    | some t =>
      let p1 := { p with nodes := p.nodes ++ [⟨song, none, some t⟩] }
      let p2 := setNext p1 t (some newIdx)
      { p2 with tail := some newIdx, size := p.size + 1 }
    | none => p

/-- Source `LinkedListPlaylist.add_song_at_beginning`. -/
def add_song_at_beginning (p : LinkedListPlaylist) (song : Song) : LinkedListPlaylist :=
  let newIdx := p.nodes.length
  if p.head = none then
    { nodes := p.nodes ++ [⟨song, none, none⟩], head := some newIdx,
      tail := some newIdx, current_node := some newIdx, size := p.size + 1 }
  else
    match p.head with
    | some h =>
      let p1 := { p with nodes := p.nodes ++ [⟨song, some h, none⟩] }
      let p2 := setPrev p1 h (some newIdx)
      { p2 with head := some newIdx, size := p.size + 1 }
    | none => p

/-- The `while current:` scan of `insert_song_after`, walking `next` pointers
from `cur` with explicit fuel.  On a title match it splices a fresh node after
the match, exactly as lines 82–98 of the source. -/
def insAfterLoop (p : LinkedListPlaylist) (target : String) (song : Song) :
    Nat → Option Nat → Bool × LinkedListPlaylist
  | 0, _ => (false, p)
  | _ + 1, none => (false, p)
  | fuel + 1, some i =>
    match p.nodes.get? i with
    | none => (false, p)
    | some nd =>
      if pyLower nd.song_data.title == pyLower target then
        let newIdx := p.nodes.length
        let p1 := { p with nodes := p.nodes ++ [⟨song, nd.next, some i⟩] }
        let p2 :=
          match nd.next with
          | some nx => setPrev p1 nx (some newIdx)
          | none => { p1 with tail := some newIdx }
        let p3 := setNext p2 i (some newIdx)
        (true, { p3 with size := p3.size + 1 })
      else
        insAfterLoop p target song fuel nd.next

/-- Source `LinkedListPlaylist.insert_song_after`. -/
def insert_song_after (p : LinkedListPlaylist) (target : String) (song : Song) :
    Bool × LinkedListPlaylist :=
  if p.head = none then (false, p)
  else insAfterLoop p target song p.nodes.length p.head

/-- The scan of `insert_song_before` (lines 111–131 of the source). -/
def insBeforeLoop (p : LinkedListPlaylist) (target : String) (song : Song) :
    Nat → Option Nat → Bool × LinkedListPlaylist
  | 0, _ => (false, p)
  | _ + 1, none => (false, p)
  | fuel + 1, some i =>
    match p.nodes.get? i with
    | none => (false, p)
    | some nd =>
      if pyLower nd.song_data.title == pyLower target then
        let newIdx := p.nodes.length
        let p1 := { p with nodes := p.nodes ++ [⟨song, some i, nd.previous⟩] }
        let p2 :=
          match nd.previous with
          | some pv => setNext p1 pv (some newIdx)
          | none => { p1 with head := some newIdx }
        let p3 := setPrev p2 i (some newIdx)
        (true, { p3 with size := p3.size + 1 })
      else
        insBeforeLoop p target song fuel nd.next

/-- Source `LinkedListPlaylist.insert_song_before`. -/
def insert_song_before (p : LinkedListPlaylist) (target : String) (song : Song) :
    Bool × LinkedListPlaylist :=
  if p.head = none then (false, p)
  else insBeforeLoop p target song p.nodes.length p.head

/-- The scan of `remove_song` (lines 142–171 of the source): on a title match,
first re-point the cursor if it referenced the matched node (successor, else
predecessor, else unset), then unlink the node and decrement `size`. -/
def removeLoop (p : LinkedListPlaylist) (title : String) :
    Nat → Option Nat → Bool × LinkedListPlaylist
  | 0, _ => (false, p)
  | _ + 1, none => (false, p)
  | fuel + 1, some i =>
    match p.nodes.get? i with
    | none => (false, p)
    | some nd =>
      if pyLower nd.song_data.title == pyLower title then
        let p1 :=
          if p.current_node = some i then
            match nd.next with
            | some nx => { p with current_node := some nx }
            | none =>
              match nd.previous with
              | some pv => { p with current_node := some pv }
              | none => { p with current_node := none }
          else p
        let p2 :=
          match nd.previous with
          | some pv => setNext p1 pv nd.next
          | none => { p1 with head := nd.next }
        let p3 :=
          match nd.next with
          | some nx => setPrev p2 nx nd.previous
          | none => { p2 with tail := nd.previous }
        (true, { p3 with size := p3.size - 1 })
      else
        removeLoop p title fuel nd.next

/-- Source `LinkedListPlaylist.remove_song`. -/
def remove_song (p : LinkedListPlaylist) (title : String) :
    Bool × LinkedListPlaylist :=
  if p.head = none then (false, p)
  else removeLoop p title p.nodes.length p.head

/-- Source `LinkedListPlaylist.next_song` (state part; returns the playlist after the
call). -/
def next_song (p : LinkedListPlaylist) : LinkedListPlaylist :=
  match p.current_node with
  | none => p
  | some c =>
    match p.nodes.get? c with
    | none => p
    | some nd =>
      match nd.next with
      | none => p
      | some nx => { p with current_node := some nx }

/-- Source `LinkedListPlaylist.previous_song` (state part). -/
def previous_song (p : LinkedListPlaylist) : LinkedListPlaylist :=
  match p.current_node with
  | none => p
  | some c =>
    match p.nodes.get? c with
    | none => p
    | some nd =>
      match nd.previous with
      | none => p
      | some pv => { p with current_node := some pv }

/-- Source `LinkedListPlaylist.go_to_first_song` (state part). -/
def go_to_first_song (p : LinkedListPlaylist) : LinkedListPlaylist :=
  if p.head = none then p else { p with current_node := p.head }

/-- Source `LinkedListPlaylist.go_to_last_song` (state part). -/
def go_to_last_song (p : LinkedListPlaylist) : LinkedListPlaylist :=
  if p.head = none then p else { p with current_node := p.tail }

/-- The link-flipping loop of `reverse_playlist`: at each visited node swap
`next`/`previous`, then step to the node's new `previous` (= its old `next`).
Returns `none` when `fuel` runs out with the loop still running (the walk can
cycle on corrupted states) or when it hits an invalid index. -/
def revFlip (nodes : List SongNode) : Nat → Option Nat → Option (List SongNode)
  | _, none => some nodes
  | 0, some _ => none
  | fuel + 1, some i =>
    match nodes.get? i with
    | none => none
    | some nd =>
      revFlip (modifyIdx nodes i (fun _ => ⟨nd.song_data, nd.previous, nd.next⟩))
        fuel nd.next

/-- The cursor-relocation scan of `reverse_playlist`: walk `next` pointers
from `cur` looking for a node whose `song_data` equals `target` (Python dict
value equality).  `some (some i)`: found at `i`; `some none`: the walk reached
the end without a match; `none`: out of fuel while the walk was still running
(the Python loop diverges on a pointer cycle missing the target). -/
def findSongFrom (nodes : List SongNode) (target : Song) :
    Nat → Option Nat → Option (Option Nat)
  | _, none => some none
  | 0, some _ => none
  | fuel + 1, some i =>
    match nodes.get? i with
    | none => none
    | some nd =>
      if nd.song_data = target then some (some i)
      else findSongFrom nodes target fuel nd.next

/-- Source `LinkedListPlaylist.reverse_playlist`, with explicit fuel for its two
unbounded loops; `none` models non-termination of the Python code. -/
def reverse_playlist (p : LinkedListPlaylist) (fuel : Nat) :
    Option LinkedListPlaylist :=
  if p.size ≤ 1 then some p
  else
    let p1 := { p with head := p.tail, tail := p.head }
    match revFlip p1.nodes fuel p1.head with
    | none => none
    | some nodes2 =>
      let p2 := { p1 with nodes := nodes2 }
      match p2.current_node with
      | none => some p2
      | some c =>
        match p2.nodes.get? c with
        | none => none
        | some cnd =>
          match findSongFrom p2.nodes cnd.song_data fuel p2.head with
          | none => none
          | some none => some p2
          | some (some t) => some { p2 with current_node := some t }

/-- One random pair swap of `shuffle_playlist` (`songs[i], songs[j] =
songs[j], songs[i]`). -/
def swapIdx (songs : List Song) (i j : Nat) : List Song :=
  match songs.get? i, songs.get? j with
  | some a, some b => (songs.set i b).set j a
  | _, _ => songs

/-- Source `LinkedListPlaylist.shuffle_playlist`.  The random generator is an oracle
`f`: draw `k` yields the pair of `random.randint(0, size-1)` results, taken
modulo `size` to reflect `randint`'s range guarantee.  After `2 * size`
conditional swaps the list is rebuilt through `add_song_at_end` and the cursor
reset to the new head. -/
def shuffle_playlist (p : LinkedListPlaylist) (f : Nat → Nat × Nat) :
    LinkedListPlaylist :=
  if p.size ≤ 1 then p
  else
    let n := p.size
    let songs0 := forwardSongs p
    let songs :=
      (List.range (n * 2)).foldl
        (fun arr k =>
          let i := (f k).1 % n
          let j := (f k).2 % n
          if i ≠ j then swapIdx arr i j else arr)
        songs0
    let p0 := { p with head := none, tail := none, size := 0 }
    let p1 := songs.foldl add_song_at_end p0
    { p1 with current_node := p1.head }

/-- A public playlist operation (the randomness oracle and loop fuel are
carried by the operation itself). -/
inductive PlOp where
  | addEnd (song : Song)
  | addStart (song : Song)
  | insAfter (target : String) (song : Song)
  | insBefore (target : String) (song : Song)
  | remove (title : String)
  | nextOp
  | prevOp
  | goFirst
  | goLast
  | reverseOp (fuel : Nat)
  | shuffleOp (f : Nat → Nat × Nat)

/-- Run one public operation; `none` only when `reverse_playlist`
diverges. -/
def runOp (p : LinkedListPlaylist) : PlOp → Option LinkedListPlaylist
  | .addEnd song => some (add_song_at_end p song)
  | .addStart song => some (add_song_at_beginning p song)
  | .insAfter target song => some (insert_song_after p target song).2
  | .insBefore target song => some (insert_song_before p target song).2
  | .remove title => some (remove_song p title).2
  | .nextOp => some (next_song p)
  | .prevOp => some (previous_song p)
  | .goFirst => some (go_to_first_song p)
  | .goLast => some (go_to_last_song p)
  | .reverseOp fuel => reverse_playlist p fuel
  | .shuffleOp f => some (shuffle_playlist p f)

/-- Run a sequence of public operations from the empty playlist. -/
def runOps (ops : List PlOp) : Option LinkedListPlaylist :=
  ops.foldl (fun st op => st.bind (fun p => runOp p op)) (some emptyPlaylist)

/-- Marker for the add/insert/remove subset of operations (claim C7). -/
def isAddRemove : PlOp → Bool
  | .addEnd _ => true
  | .addStart _ => true
  | .insAfter _ _ => true
  | .insBefore _ _ => true
  | .remove _ => true
  | _ => false

/-- Marker for `reverse_playlist` calls. -/
def isReverseOp : PlOp → Bool
  | .reverseOp _ => true
  | _ => false

/-! ## Playlist catalog (`PlaylistManager`) -/

/-- Source `PlaylistManager`: insertion-ordered mapping from playlist name to
playlist (Python dict), plus the current selection.  The constructor takes no
description store — the source class has none. -/
structure PlaylistManager where
  playlists : List (String × LinkedListPlaylist)
  current_playlist_name : Option String
deriving DecidableEq

/-- Source `PlaylistManager.__init__`. -/
def emptyManager : PlaylistManager := { playlists := [], current_playlist_name := none }

/-- Source `PlaylistManager.create_playlist`.  On a fresh name: insert an empty
playlist (Python dict assignment appends a new key) and select it.  The
`description` argument is only echoed to the console by the source; it is not
stored anywhere in the object state. -/
def create_playlist (m : PlaylistManager) (name : String) (description : String) :
    Bool × PlaylistManager :=
  if (m.playlists.lookup name).isSome then (false, m)
  else
    (true,
      { playlists := m.playlists ++ [(name, emptyPlaylist)],
        current_playlist_name := some name })

/-- Replace the playlist stored under `name` (models in-place mutation of the
object held by the dict). -/
def storePlaylist (m : PlaylistManager) (name : String) (pl : LinkedListPlaylist) :
    PlaylistManager :=
  { m with
    playlists := m.playlists.map (fun e => if e.1 = name then (name, pl) else e) }

/-- Source `PlaylistManager.create_playlist_from_library`.  The library provider is
passed as the snapshot `song_library` (`music_manager.get_song_library()`).
Note the non-atomicity: when the snapshot is empty the function returns
`false` *after* `create_playlist` has already added and selected the new empty
playlist. -/
def create_playlist_from_library (m : PlaylistManager) (name : String)
    (song_library : List Song) (max_songs : Nat) (description : String) :
    Bool × PlaylistManager :=
  match create_playlist m name description with
  | (false, m1) => (false, m1)
  | (true, m1) =>
    if song_library.isEmpty then (false, m1)
    else
      let songs_to_add := song_library.take max_songs
      let current := ((m1.playlists.lookup name).getD emptyPlaylist)
      let current := songs_to_add.foldl add_song_at_end current
      (true, storePlaylist m1 name current)

/-! ## Well-formedness of the pointer structure

`seg nodes prv l nxt` says: walking the indices of `l` in order, every index
is valid, each node's `previous` points at the preceding index of `l` (`prv`
before the first) and each node's `next` points at the following index (`nxt`
after the last).  `Inv p l` packages the full doubly-linked-list invariant
with witness chain `l`. -/

/-- The head of `l`, or `d` when `l` is empty. -/
def headOr (l : List Nat) (d : Option Nat) : Option Nat :=
  match l with
  | [] => d
  | j :: _ => some j

/-- The last element of `l`, or `d` when `l` is empty. -/
def lastOr (l : List Nat) (d : Option Nat) : Option Nat :=
  match l.getLast? with
  | some j => some j
  | none => d

/-- Doubly-linked segment check (see section comment). -/
def seg (nodes : List SongNode) : Option Nat → List Nat → Option Nat → Bool
  | _, [], _ => true
  | prv, i :: rest, nxt =>
    match nodes.get? i with
    | none => false
    | some nd =>
      nd.previous == prv && nd.next == headOr rest nxt && seg nodes (some i) rest nxt

/-- Full invariant of a playlist state, with `l` the list of live node
indices in forward order. -/
structure PlInv (p : LinkedListPlaylist) (l : List Nat) : Prop where
  links : seg p.nodes none l none = true
  headOk : p.head = l.head?
  tailOk : p.tail = l.getLast?
  sizeOk : p.size = l.length
  nodup : l.Nodup
  curMem : ∀ c, p.current_node = some c → c ∈ l
  curSet : l ≠ [] → p.current_node ≠ none

/-! ## Concrete instances used by witnesses and counterexamples -/

/-- Concrete song "A". -/
def songA : Song := ⟨"A", "ArtistA", ".mp3", "music/a.mp3", 100⟩

/-- Concrete song "B". -/
def songB : Song := ⟨"B", "ArtistB", ".mp3", "music/b.mp3", 200⟩

/-- Concrete song "C". -/
def songC : Song := ⟨"C", "ArtistC", ".mp3", "music/c.mp3", 300⟩

/-- Three-song playlist `[A, B, C]` built by three `add_song_at_end` calls;
its cursor sits on the first node (set by the first add). -/
def playlistABC : LinkedListPlaylist :=
  add_song_at_end (add_song_at_end (add_song_at_end emptyPlaylist songA) songB) songC

/-- The arena of `playlistABC` after the link-flipping pass of one
`reverse_playlist` call: only the old tail (node 2) had its pointers swapped,
so nodes 1 and 2 now point at each other (`1.next = 2`, `2.next = 1`) and
node 0 is no longer reachable from the new head. -/
def revNodesABC : List SongNode :=
  [⟨songA, some 1, none⟩, ⟨songB, some 2, some 0⟩, ⟨songC, some 1, none⟩]

/-- The playlist state reached inside `reverse_playlist playlistABC` just
before the cursor-relocation scan. -/
def revStuckABC : LinkedListPlaylist :=
  { nodes := revNodesABC, head := some 2, tail := some 0,
    current_node := some 0, size := 3 }

/-! # Theorems -/

/-! ## Party queue: sortedness and stability (claim C1) -/

theorem sorted_pySortByPrio (l : List (Song × Int)) :
    List.Sorted prioGE (pySortByPrio l) :=
  List.sorted_insertionSort prioGE l

theorem sorted_foldl_partyStep (ops : List PartyOp) :
    ∀ q : List (Song × Int), List.Sorted prioGE q →
      List.Sorted prioGE (List.foldl partyStep q ops) := by
  induction ops with
  | nil => intro q hq; simpa using hq
  | cons op rest ih =>
    intro q hq
    rw [List.foldl_cons]
    apply ih
    cases op with
    | enq song priority => exact sorted_pySortByPrio _
    | upv title =>
      show List.Sorted prioGE (PrioritySongQueue.upvote q title).2
      rw [PrioritySongQueue.upvote]
      cases h : PrioritySongQueue.upvoteScan title q with
      | none => simpa using hq
      | some q' => exact sorted_pySortByPrio _

theorem filter_orderedInsert_prio (a : Song × Int) (l : List (Song × Int)) (q : Int) :
    (List.orderedInsert prioGE a l).filter (fun e => e.2 == q)
      = ((a :: l).filter (fun e => e.2 == q)) := by
  induction l with
  | nil => rfl
  | cons b t ih =>
    rw [List.orderedInsert]
    by_cases hab : prioGE a b
    · rw [if_pos hab]
    · rw [if_neg hab]
      have hlt : a.2 < b.2 := lt_of_not_le hab
      by_cases haq : a.2 = q
      · have hbq : ¬ b.2 = q := by
          intro hb; exact absurd (le_of_eq (hb.trans haq.symm)) hab
        simp [List.filter_cons, haq, hbq, ih]
      · simp [List.filter_cons, haq, ih]

theorem filter_pySortByPrio (l : List (Song × Int)) (q : Int) :
    (pySortByPrio l).filter (fun e => e.2 == q) = l.filter (fun e => e.2 == q) := by
  induction l with
  | nil => rfl
  | cons a t ih =>
    have h1 : pySortByPrio (a :: t) = List.orderedInsert prioGE a (pySortByPrio t) := rfl
    rw [h1, filter_orderedInsert_prio]
    simp only [List.filter_cons]
    rw [ih]

theorem filter_foldl_enqueue (enqs : List (Song × Int)) :
    ∀ (s : List (Song × Int)) (q : Int),
      (List.foldl partyStep s (enqs.map (fun e => PartyOp.enq e.1 e.2))).filter
          (fun e => e.2 == q)
        = (s ++ enqs).filter (fun e => e.2 == q) := by
  induction enqs with
  | nil => intro s q; simp
  | cons e rest ih =>
    intro s q
    simp only [List.map_cons, List.foldl_cons]
    rw [show partyStep s (PartyOp.enq e.1 e.2)
          = pySortByPrio (s ++ [(e.1, e.2)]) from rfl]
    rw [ih, List.filter_append, filter_pySortByPrio, ← List.filter_append]
    simp

/-- C1 (corrected): after every sequence of `enqueue`/`upvote` calls starting
from the empty queue, the stored sequence is non-increasing by priority; and
for enqueue-only call sequences the entries holding any given priority appear
exactly in their enqueue order (stability).  The original claim's stronger
tie-break — original enqueue order among equal priorities after arbitrary
upvotes — is refuted by `partyQueue_insertion_order_counterexample`. -/
theorem partyQueue_order_and_enqueue_stability :
    (∀ ops : List PartyOp, (runParty ops).Pairwise (fun a b => b.2 ≤ a.2)) ∧
      (∀ (enqs : List (Song × Int)) (q : Int),
        (runParty (enqs.map (fun e => PartyOp.enq e.1 e.2))).filter
            (fun e => e.2 == q)
          = enqs.filter (fun e => e.2 == q)) := by
  constructor
  · intro ops
    exact sorted_foldl_partyStep ops [] (by simp [List.Sorted])
  · intro enqs q
    rw [runParty, filter_foldl_enqueue]
    simp

/-- C1 counterexample: enqueue A at priority 0, enqueue B at priority 1, then
upvote A.  The stored sequence becomes `[(B,1), (A,1)]`: equal priorities, but
B (enqueued second) precedes A (enqueued first), so ties are not broken by
original insertion order once upvotes are involved. -/
theorem partyQueue_insertion_order_counterexample :
    ¬ partyStabilityClaim [.enq songA 0, .enq songB 1, .upv "A"] := by
  intro h
  have hrun : runParty [.enq songA 0, .enq songB 1, .upv "A"]
      = [(songB, 1), (songA, 1)] := by decide
  have h2 := h.2
  rw [hrun, List.pairwise_cons] at h2
  have hord := h2.1 (songA, 1) (by simp) rfl
  have hA : firstEnqIdx [.enq songA 0, .enq songB 1, .upv "A"] songA = 0 := by rfl
  have hB : firstEnqIdx [.enq songA 0, .enq songB 1, .upv "A"] songB = 1 := by rfl
  rw [hA, hB] at hord
  exact absurd hord (by omega)

/-! ## Listening history search (claim C8) -/

/-- C8: `search_history` returns exactly the entries whose title or artist
contains the query case-insensitively, as an order-preserving subsequence of
the stack (oldest first); and searching `"ABC"` or `"abc"` yields the same
sequence on every history. -/
theorem search_history_spec :
    (∀ (stack : List Song) (query : String),
        (search_history stack query).Sublist stack ∧
        ∀ s, s ∈ search_history stack query ↔
          s ∈ stack ∧
            (strIn (pyLower query) (pyLower s.title) ||
              strIn (pyLower query) (pyLower s.artist)) = true) ∧
      (∀ stack : List Song, search_history stack "ABC" = search_history stack "abc") := by
  constructor
  · intro stack query
    constructor
    · exact List.filter_sublist stack
    · intro s
      rw [search_history, List.mem_filter]
  · intro stack
    rw [search_history, search_history]
    have h : pyLower "ABC" = pyLower "abc" := rfl
    rw [h]

/-- Witness for C8 on a concrete history: searching for `"b"` returns exactly
song B, in order, and `"ABC"`/`"abc"` agree. -/
theorem search_history_spec_witness :
    (search_history [songA, songB] "b").Sublist [songA, songB] ∧
      (songB ∈ search_history [songA, songB] "b" ↔
        songB ∈ [songA, songB] ∧
          (strIn (pyLower "b") (pyLower songB.title) ||
            strIn (pyLower "b") (pyLower songB.artist)) = true) ∧
      search_history [songA, songB] "ABC" = search_history [songA, songB] "abc" :=
  ⟨(search_history_spec.1 [songA, songB] "b").1,
    (search_history_spec.1 [songA, songB] "b").2 songB,
    search_history_spec.2 [songA, songB]⟩

/-! ## Orchestrator `play_song` (claim C5) -/

/-- C5: when the external load-and-play capability fails, `play_song` resets
`currently_playing` to `none` and leaves the history untouched (the failed
song is not pushed); when it succeeds, the song becomes current and is pushed
onto the history.  (`play_song` is a total function: the `pygame.error` raised
by the capability is consumed inside it, so no exception escapes.) -/
theorem play_song_spec (load_and_play : String → Bool) (st : PlayerState) (song : Song) :
    (load_and_play song.file_path = false →
      play_song load_and_play st song
        = { currently_playing := none, history := st.history }) ∧
    (load_and_play song.file_path = true →
      play_song load_and_play st song
        = { currently_playing := some song, history := st.history ++ [song] }) := by
  constructor
  · intro h; rw [play_song, h]; simp
  · intro h; rw [play_song, h]; simp

/-- Witness for C5: a failing capability on an empty state, and a succeeding
one. -/
theorem play_song_spec_witness :
    play_song (fun _ => false) ⟨some songB, [songB]⟩ songA
        = { currently_playing := none, history := [songB] } ∧
      play_song (fun _ => true) ⟨none, [songB]⟩ songA
        = { currently_playing := some songA, history := [songB, songA] } :=
  ⟨(play_song_spec (fun _ => false) ⟨some songB, [songB]⟩ songA).1 rfl,
    (play_song_spec (fun _ => true) ⟨none, [songB]⟩ songA).2 rfl⟩

/-! ## Catalog `create_playlist` (claims C2 and C10) -/

theorem lookup_append_fresh (xs : List (String × LinkedListPlaylist))
    (name : String) (v : LinkedListPlaylist) (h : xs.lookup name = none) :
    (xs ++ [(name, v)]).lookup name = some v := by
  induction xs with
  | nil => simp [List.lookup]
  | cons e t ih =>
    rw [List.cons_append, List.lookup]
    rw [List.lookup] at h
    cases hk : (name == e.1) with
    | true => rw [hk] at h; simp at h
    | false => rw [hk] at h; exact ih h

/-- C2 counterexample: the catalog state and result after
`create_playlist("P", "a description")` are identical to those after
`create_playlist("P", "")` — the source only prints the description, so no
observer of the `PlaylistManager` state can recover it; "stores the given
description for that name" is false. -/
theorem create_playlist_description_counterexample :
    create_playlist emptyManager "P" "a description"
      = create_playlist emptyManager "P" "" := rfl

/-- C2 (corrected): if `name` is already a key, `create_playlist` returns
`false` and the whole catalog state (mapping, stored playlists, current
selection) is unchanged; otherwise it returns `true`, appends a new empty
playlist under `name` and makes `name` current.  The description argument is
echoed to the console only; it is not stored. -/
theorem create_playlist_spec (m : PlaylistManager) (name description : String) :
    ((m.playlists.lookup name).isSome = true →
      create_playlist m name description = (false, m)) ∧
    (m.playlists.lookup name = none →
      create_playlist m name description
          = (true,
              { playlists := m.playlists ++ [(name, emptyPlaylist)],
                current_playlist_name := some name }) ∧
        (create_playlist m name description).2.playlists.lookup name
          = some emptyPlaylist) := by
  constructor
  · intro h; rw [create_playlist, if_pos h]
  · intro h
    have h' : ¬ (m.playlists.lookup name).isSome = true := by rw [h]; simp
    constructor
    · rw [create_playlist, if_neg h']
    · rw [create_playlist, if_neg h']
      exact lookup_append_fresh m.playlists name emptyPlaylist h

/-- Witness for C2: creating `"P"` twice from the empty catalog — the second
call fails and changes nothing; the first stores an empty playlist and selects
`"P"`. -/
theorem create_playlist_spec_witness :
    (create_playlist (create_playlist emptyManager "P" "").2 "P" "d"
        = (false, (create_playlist emptyManager "P" "").2)) ∧
      create_playlist emptyManager "P" "d"
          = (true,
              { playlists := [("P", emptyPlaylist)],
                current_playlist_name := some "P" }) ∧
        (create_playlist emptyManager "P" "d").2.playlists.lookup "P"
          = some emptyPlaylist :=
  ⟨(create_playlist_spec (create_playlist emptyManager "P" "").2 "P" "d").1 (by rfl),
    by
      have h := (create_playlist_spec emptyManager "P" "d").2 (by rfl)
      simpa [emptyManager] using h⟩

/-- C10: calling `create_playlist_from_library` with a fresh name but an
empty library snapshot returns `false`, yet the new empty playlist has
already been created, is still in the catalog, and is the current selection —
the failure does not undo the creation. -/
theorem create_from_library_empty_nonatomic (m : PlaylistManager)
    (name description : String) (max_songs : Nat)
    (h : m.playlists.lookup name = none) :
    (create_playlist_from_library m name [] max_songs description).1 = false ∧
      (create_playlist_from_library m name [] max_songs description).2.playlists.lookup
          name = some emptyPlaylist ∧
      (create_playlist_from_library m name [] max_songs
          description).2.current_playlist_name = some name := by
  have h' : ¬ (m.playlists.lookup name).isSome = true := by rw [h]; simp
  rw [create_playlist_from_library]
  rw [create_playlist, if_neg h']
  refine ⟨rfl, ?_, rfl⟩
  exact lookup_append_fresh m.playlists name emptyPlaylist h

/-- Witness for C10 at the empty catalog. -/
theorem create_from_library_empty_nonatomic_witness :
    (create_playlist_from_library emptyManager "P" [] 10 "d").1 = false ∧
      (create_playlist_from_library emptyManager "P" [] 10 "d").2.playlists.lookup "P"
        = some emptyPlaylist ∧
      (create_playlist_from_library emptyManager "P" [] 10
          "d").2.current_playlist_name = some "P" :=
  create_from_library_empty_nonatomic emptyManager "P" "d" 10 (by rfl)

/-! ## Arena access lemmas -/

theorem modifyIdx_length (nodes : List SongNode) (i : Nat) (f : SongNode → SongNode) :
    (modifyIdx nodes i f).length = nodes.length := by
  induction nodes generalizing i with
  | nil => rfl
  | cons nd rest ih =>
    cases i with
    | zero => rfl
    | succ j => simpa [modifyIdx] using ih j

theorem get?_modifyIdx_ne (nodes : List SongNode) (i j : Nat) (f : SongNode → SongNode)
    (h : j ≠ i) : (modifyIdx nodes i f).get? j = nodes.get? j := by
  induction nodes generalizing i j with
  | nil => rfl
  | cons nd rest ih =>
    cases i with
    | zero =>
      cases j with
      | zero => exact absurd rfl h
      | succ j' => rfl
    | succ i' =>
      cases j with
      | zero => rfl
      | succ j' =>
        show (modifyIdx rest i' f).get? j' = rest.get? j'
        exact ih i' j' (fun hh => h (congrArg Nat.succ hh))

theorem get?_modifyIdx_self (nodes : List SongNode) (i : Nat) (f : SongNode → SongNode) :
    (modifyIdx nodes i f).get? i = (nodes.get? i).map f := by
  induction nodes generalizing i with
  | nil => rfl
  | cons nd rest ih =>
    cases i with
    | zero => rfl
    | succ j => simpa [modifyIdx] using ih j

/-! ## Segment lemmas -/

theorem headOr_append (xs ys : List Nat) (d : Option Nat) :
    headOr (xs ++ ys) d = headOr xs (headOr ys d) := by
  cases xs <;> rfl

theorem headOr_none_eq (l : List Nat) : headOr l none = l.head? := by
  cases l <;> rfl

theorem lastOr_cons (x : Nat) (xs : List Nat) (d : Option Nat) :
    lastOr (x :: xs) d = lastOr xs (some x) := by
  cases xs with
  | nil => rfl
  | cons y t =>
    rw [lastOr, lastOr, List.getLast?_cons_cons]
    cases h : (y :: t).getLast? with
    | none => simp at h
    | some z => rfl

theorem lastOr_none_eq (l : List Nat) : lastOr l none = l.getLast? := by
  rw [lastOr]
  cases l.getLast? <;> rfl

theorem lastOr_append_singleton (xs : List Nat) (x : Nat) (d : Option Nat) :
    lastOr (xs ++ [x]) d = some x := by
  rw [lastOr]
  simp

theorem seg_cons_none {nodes : List SongNode} {prv nxt : Option Nat} {i : Nat}
    {rest : List Nat} (h : nodes.get? i = none) :
    seg nodes prv (i :: rest) nxt = false := by
  simp only [seg, h]

theorem seg_cons_some {nodes : List SongNode} {prv nxt : Option Nat} {i : Nat}
    {rest : List Nat} {nd : SongNode} (h : nodes.get? i = some nd) :
    seg nodes prv (i :: rest) nxt
      = (nd.previous == prv && (nd.next == headOr rest nxt && seg nodes (some i) rest nxt)) := by
  simp only [seg, h, Bool.and_assoc]

theorem seg_cons_iff {nodes : List SongNode} {prv nxt : Option Nat} {i : Nat}
    {rest : List Nat} :
    seg nodes prv (i :: rest) nxt = true ↔
      ∃ nd, nodes.get? i = some nd ∧ nd.previous = prv ∧
        nd.next = headOr rest nxt ∧ seg nodes (some i) rest nxt = true := by
  cases h : nodes.get? i with
  | none =>
    rw [seg_cons_none h]
    simp
  | some nd =>
    rw [seg_cons_some h]
    constructor
    · intro hh
      simp only [Bool.and_eq_true, beq_iff_eq] at hh
      exact ⟨nd, rfl, hh.1, hh.2.1, hh.2.2⟩
    · rintro ⟨nd', hnd', h1, h2, h3⟩
      injection hnd' with he
      subst he
      simp only [Bool.and_eq_true, beq_iff_eq]
      exact ⟨h1, h2, h3⟩

theorem seg_valid {nodes : List SongNode} :
    ∀ (l : List Nat) (prv nxt : Option Nat), seg nodes prv l nxt = true →
      ∀ j ∈ l, j < nodes.length := by
  intro l
  induction l with
  | nil => intro prv nxt _ j hj; exact absurd hj (List.not_mem_nil j)
  | cons i rest ih =>
    intro prv nxt h j hj
    obtain ⟨nd, hnd, _, _, hrest⟩ := seg_cons_iff.1 h
    rcases List.mem_cons.1 hj with hji | hjr
    · subst hji
      exact (List.get?_eq_some.1 hnd).1
    · exact ih (some i) nxt hrest j hjr

theorem seg_frame {nodes nodes' : List SongNode} :
    ∀ (l : List Nat) (prv nxt : Option Nat),
      (∀ j ∈ l, nodes'.get? j = nodes.get? j) →
      seg nodes prv l nxt = true → seg nodes' prv l nxt = true := by
  intro l
  induction l with
  | nil => intro prv nxt _ _; rfl
  | cons i rest ih =>
    intro prv nxt hfr h
    obtain ⟨nd, hnd, h1, h2, h3⟩ := seg_cons_iff.1 h
    exact seg_cons_iff.2 ⟨nd, (hfr i (by simp)).trans hnd, h1, h2,
      ih (some i) nxt (fun j hj => hfr j (by simp [hj])) h3⟩

theorem seg_append {nodes : List SongNode} :
    ∀ (xs ys : List Nat) (prv nxt : Option Nat),
      seg nodes prv (xs ++ ys) nxt
        = (seg nodes prv xs (headOr ys nxt) && seg nodes (lastOr xs prv) ys nxt) := by
  intro xs
  induction xs with
  | nil => intro ys prv nxt; simp [seg, lastOr]
  | cons x xs' ih =>
    intro ys prv nxt
    rw [List.cons_append, lastOr_cons]
    cases h : nodes.get? x with
    | none => rw [seg_cons_none h, seg_cons_none h, Bool.false_and]
    | some nd =>
      rw [seg_cons_some h, seg_cons_some h, ih ys (some x) nxt, headOr_append]
      simp [Bool.and_assoc]

theorem seg_length_le {nodes : List SongNode} {l : List Nat} {prv nxt : Option Nat}
    (h : seg nodes prv l nxt = true) (hd : l.Nodup) : l.length ≤ nodes.length := by
  have hsub : l ⊆ List.range nodes.length := by
    intro j hj
    exact List.mem_range.2 (seg_valid l prv nxt h j hj)
  have := (hd.subperm hsub).length_le
  simpa using this

/-! ## Traversal lemmas -/

theorem chainD_none (nodes : List SongNode) (dir : SongNode → Option Nat) (fuel : Nat) :
    chainD nodes dir fuel none = [] := by
  cases fuel <;> rfl

theorem chainD_next_eq {nodes : List SongNode} :
    ∀ (l : List Nat) (prv : Option Nat) (fuel : Nat),
      seg nodes prv l none = true → l.length ≤ fuel →
      chainD nodes (fun nd => nd.next) fuel (headOr l none) = l := by
  intro l
  induction l with
  | nil => intro prv fuel _ _; exact chainD_none nodes _ fuel
  | cons i rest ih =>
    intro prv fuel h hfuel
    obtain ⟨nd, hnd, _, h2, h3⟩ := seg_cons_iff.1 h
    cases fuel with
    | zero => exact absurd hfuel (by simp)
    | succ f =>
      show chainD nodes (fun nd => nd.next) (f + 1) (some i) = i :: rest
      rw [chainD, hnd]
      simp only []
      rw [h2, ih (some i) f h3 (by simp only [List.length_cons] at hfuel; omega)]

theorem chainD_prev_eq {nodes : List SongNode} :
    ∀ (l : List Nat) (nxt : Option Nat) (fuel : Nat),
      seg nodes none l nxt = true → l.length ≤ fuel →
      chainD nodes (fun nd => nd.previous) fuel (lastOr l none) = l.reverse := by
  intro l
  induction l using List.reverseRecOn with
  | nil => intro nxt fuel _ _; exact chainD_none nodes _ fuel
  | append_singleton xs x ih =>
    intro nxt fuel h hfuel
    rw [seg_append] at h
    simp only [Bool.and_eq_true] at h
    obtain ⟨hxs, hx⟩ := h
    obtain ⟨nd, hnd, h1, h2, _⟩ := seg_cons_iff.1 hx
    rw [lastOr_append_singleton]
    cases fuel with
    | zero => exact absurd hfuel (by simp)
    | succ f =>
      rw [chainD, hnd]
      simp only []
      rw [h1]
      have hlast : lastOr xs none = xs.getLast? := lastOr_none_eq xs
      have : chainD nodes (fun nd => nd.previous) f (lastOr xs none) = xs.reverse := by
        apply ih (headOr [x] nxt) f hxs
        have := hfuel
        simp only [List.length_append, List.length_singleton] at this
        omega
      rw [this]
      simp

/-! ## Invariant corollaries -/

theorem fwdChain_of_inv {p : LinkedListPlaylist} {l : List Nat} (h : PlInv p l) :
    fwdChain p = l := by
  rw [fwdChain, h.headOk, ← headOr_none_eq]
  exact chainD_next_eq l none p.nodes.length h.links (seg_length_le h.links h.nodup)

theorem bwdChain_of_inv {p : LinkedListPlaylist} {l : List Nat} (h : PlInv p l) :
    bwdChain p = l.reverse := by
  rw [bwdChain, h.tailOk, ← lastOr_none_eq]
  exact chainD_prev_eq l none p.nodes.length h.links (seg_length_le h.links h.nodup)

theorem plinv_empty : PlInv emptyPlaylist [] := by
  refine ⟨rfl, rfl, rfl, rfl, List.nodup_nil, ?_, ?_⟩
  · intro c hc; cases hc
  · intro h; exact absurd rfl h

/-! ## Operation characterizations and invariant preservation: adds -/

theorem head?_append_left {α : Type} (l l2 : List α) (h : l ≠ []) :
    (l ++ l2).head? = l.head? := by
  cases l with
  | nil => exact absurd rfl h
  | cons a t => rfl

theorem inv_nil_of_head_none {p : LinkedListPlaylist} {l : List Nat}
    (h : PlInv p l) (hemp : p.head = none) : l = [] := by
  cases hl : l with
  | nil => rfl
  | cons a t =>
    have := h.headOk
    rw [hemp, hl] at this
    cases this

theorem inv_head_some_of_ne_nil {p : LinkedListPlaylist} {l : List Nat}
    (h : PlInv p l) (hne : l ≠ []) : ¬ p.head = none := by
  intro hemp
  exact hne (inv_nil_of_head_none h hemp)

theorem add_song_at_end_empty_eq (p : LinkedListPlaylist) (song : Song)
    (hemp : p.head = none) :
    add_song_at_end p song
      = { nodes := p.nodes ++ [⟨song, none, none⟩], head := some p.nodes.length,
          tail := some p.nodes.length, current_node := some p.nodes.length,
          size := p.size + 1 } := by
  rw [add_song_at_end, if_pos hemp]

theorem add_song_at_end_tail_eq (p : LinkedListPlaylist) (song : Song) (t : Nat)
    (hne : ¬ p.head = none) (ht : p.tail = some t) :
    add_song_at_end p song
      = { nodes := modifyIdx (p.nodes ++ [⟨song, none, some t⟩]) t
            (fun nd => { nd with next := some p.nodes.length }),
          head := p.head, tail := some p.nodes.length,
          current_node := p.current_node, size := p.size + 1 } := by
  rw [add_song_at_end, if_neg hne, ht]
  rfl

theorem add_song_at_end_inv {p : LinkedListPlaylist} {l : List Nat}
    (h : PlInv p l) (song : Song) :
    PlInv (add_song_at_end p song) (l ++ [p.nodes.length]) := by
  by_cases hemp : p.head = none
  · have hl : l = [] := inv_nil_of_head_none h hemp
    subst hl
    have hsz : p.size = 0 := h.sizeOk
    rw [add_song_at_end_empty_eq p song hemp]
    refine ⟨?_, rfl, rfl, by simp [hsz], by simp, ?_, ?_⟩
    · exact seg_cons_iff.2 ⟨⟨song, none, none⟩, List.get?_concat_length _ _, rfl, rfl, rfl⟩
    · intro c hc
      injection hc with hc
      simp [hc]
    · intro _ hc
      cases hc
  · have hlne : l ≠ [] := by
      intro hl
      have := h.headOk
      rw [hl] at this
      exact hemp this
    obtain ⟨xs, t0, hxl⟩ := (List.eq_nil_or_concat l).resolve_left hlne
    rw [List.concat_eq_append] at hxl
    have ht : p.tail = some t0 := by rw [h.tailOk, hxl]; simp
    rw [add_song_at_end_tail_eq p song t0 hemp ht]
    set n := p.nodes.length with hn
    set newNode : SongNode := ⟨song, none, some t0⟩ with hnew
    set nodes2 := modifyIdx (p.nodes ++ [newNode]) t0
      (fun nd => { nd with next := some n }) with hnodes2
    have hvalid : ∀ j ∈ l, j < p.nodes.length :=
      seg_valid l none none h.links
    have ht0lt : t0 < p.nodes.length := hvalid t0 (by rw [hxl]; simp)
    -- original segment decomposition
    have hsegl := h.links
    rw [hxl, seg_append] at hsegl
    simp only [Bool.and_eq_true] at hsegl
    obtain ⟨hxs, ht0seg⟩ := hsegl
    obtain ⟨ndt, hndt, hprevt, hnextt, _⟩ := seg_cons_iff.1 ht0seg
    -- arena access in the new state
    have hacc_t0 : nodes2.get? t0 = some { ndt with next := some n } := by
      rw [hnodes2, get?_modifyIdx_self, List.get?_append ht0lt, hndt]
      rfl
    have hacc_n : nodes2.get? n = some newNode := by
      rw [hnodes2, get?_modifyIdx_ne _ _ _ _ (by omega), hn]
      exact List.get?_concat_length _ _
    have hacc_old : ∀ j, j < p.nodes.length → j ≠ t0 → nodes2.get? j = p.nodes.get? j := by
      intro j hj hjt
      rw [hnodes2, get?_modifyIdx_ne _ _ _ _ hjt, List.get?_append hj]
    have ht0nin : t0 ∉ xs := by
      have hnd := h.nodup
      rw [hxl] at hnd
      intro hmem
      exact (List.nodup_append.1 hnd).2.2 hmem (by simp)
    -- rebuild the segment
    have hsegxs : seg nodes2 none xs (some t0) = true := by
      refine seg_frame xs none (some t0) ?_ hxs
      intro j hj
      exact hacc_old j (hvalid j (by rw [hxl]; exact List.mem_append_left _ hj))
        (fun hh => ht0nin (hh ▸ hj))
    have hsegnew : seg nodes2 (lastOr xs none) [t0, n] none = true := by
      refine seg_cons_iff.2 ⟨{ ndt with next := some n }, hacc_t0, hprevt, rfl, ?_⟩
      exact seg_cons_iff.2 ⟨newNode, hacc_n, rfl, rfl, rfl⟩
    have hlinks : seg nodes2 none ((xs ++ [t0]) ++ [n]) none = true := by
      rw [List.append_assoc, seg_append]
      simp only [Bool.and_eq_true]
      exact ⟨by simpa using hsegxs, by simpa using hsegnew⟩
    have hnin : n ∉ l := fun hmem => absurd (hvalid n hmem) (by omega)
    refine ⟨by rw [hxl]; exact hlinks, ?_, by simp, by simp [h.sizeOk], ?_, ?_, ?_⟩
    · show p.head = (l ++ [n]).head?
      rw [h.headOk, head?_append_left l [n] hlne]
    · simp only [List.nodup_append]
      exact ⟨h.nodup, List.nodup_singleton n, by simpa using hnin⟩
    · intro c hc
      exact List.mem_append_left _ (h.curMem c hc)
    · intro _ hc
      exact h.curSet hlne hc

theorem add_song_at_beginning_empty_eq (p : LinkedListPlaylist) (song : Song)
    (hemp : p.head = none) :
    add_song_at_beginning p song
      = { nodes := p.nodes ++ [⟨song, none, none⟩], head := some p.nodes.length,
          tail := some p.nodes.length, current_node := some p.nodes.length,
          size := p.size + 1 } := by
  rw [add_song_at_beginning, if_pos hemp]

theorem add_song_at_beginning_head_eq (p : LinkedListPlaylist) (song : Song) (h0 : Nat)
    (hne : ¬ p.head = none) (hh : p.head = some h0) :
    add_song_at_beginning p song
      = { nodes := modifyIdx (p.nodes ++ [⟨song, some h0, none⟩]) h0
            (fun nd => { nd with previous := some p.nodes.length }),
          head := some p.nodes.length, tail := p.tail,
          current_node := p.current_node, size := p.size + 1 } := by
  rw [add_song_at_beginning, if_neg hne, hh]
  rfl

theorem add_song_at_beginning_inv {p : LinkedListPlaylist} {l : List Nat}
    (h : PlInv p l) (song : Song) :
    PlInv (add_song_at_beginning p song) (p.nodes.length :: l) := by
  by_cases hemp : p.head = none
  · have hl : l = [] := inv_nil_of_head_none h hemp
    subst hl
    have hsz : p.size = 0 := h.sizeOk
    rw [add_song_at_beginning_empty_eq p song hemp]
    refine ⟨?_, rfl, rfl, by simp [hsz], by simp, ?_, ?_⟩
    · exact seg_cons_iff.2 ⟨⟨song, none, none⟩, List.get?_concat_length _ _, rfl, rfl, rfl⟩
    · intro c hc
      injection hc with hc
      simp [hc]
    · intro _ hc
      cases hc
  · have hlne : l ≠ [] := by
      intro hl
      have := h.headOk
      rw [hl] at this
      exact hemp this
    obtain ⟨h0, rest, hxl⟩ : ∃ h0 rest, l = h0 :: rest := by
      cases l with
      | nil => exact absurd rfl hlne
      | cons a t => exact ⟨a, t, rfl⟩
    · have hh : p.head = some h0 := by rw [h.headOk, hxl]; rfl
      rw [add_song_at_beginning_head_eq p song h0 hemp hh]
      set n := p.nodes.length with hn
      set newNode : SongNode := ⟨song, some h0, none⟩ with hnew
      set nodes2 := modifyIdx (p.nodes ++ [newNode]) h0
        (fun nd => { nd with previous := some n }) with hnodes2
      have hvalid : ∀ j ∈ l, j < p.nodes.length :=
        seg_valid l none none h.links
      have hh0lt : h0 < p.nodes.length := hvalid h0 (by rw [hxl]; simp)
      have hsegl := h.links
      rw [hxl] at hsegl
      obtain ⟨ndh, hndh, hprevh, hnexth, hrest⟩ := seg_cons_iff.1 hsegl
      have hacc_h0 : nodes2.get? h0 = some { ndh with previous := some n } := by
        rw [hnodes2, get?_modifyIdx_self, List.get?_append hh0lt, hndh]
        rfl
      have hacc_n : nodes2.get? n = some newNode := by
        rw [hnodes2, get?_modifyIdx_ne _ _ _ _ (by omega), hn]
        exact List.get?_concat_length _ _
      have hacc_old : ∀ j, j < p.nodes.length → j ≠ h0 → nodes2.get? j = p.nodes.get? j := by
        intro j hj hjt
        rw [hnodes2, get?_modifyIdx_ne _ _ _ _ hjt, List.get?_append hj]
      have hh0nin : h0 ∉ rest := by
        have hnd := h.nodup
        rw [hxl] at hnd
        exact (List.nodup_cons.1 hnd).1
      have hsegrest : seg nodes2 (some h0) rest none = true := by
        refine seg_frame rest (some h0) none ?_ hrest
        intro j hj
        exact hacc_old j (hvalid j (by rw [hxl]; exact List.mem_cons_of_mem _ hj))
          (fun hh' => hh0nin (hh' ▸ hj))
      have hlinks : seg nodes2 none (n :: h0 :: rest) none = true := by
        refine seg_cons_iff.2 ⟨newNode, hacc_n, rfl, rfl, ?_⟩
        exact seg_cons_iff.2 ⟨{ ndh with previous := some n }, hacc_h0, rfl, hnexth, hsegrest⟩
      have hnin : n ∉ l := fun hmem => absurd (hvalid n hmem) (by omega)
      refine ⟨by rw [hxl]; exact hlinks, rfl, ?_, by simp [h.sizeOk], ?_, ?_, ?_⟩
      · show p.tail = (n :: l).getLast?
        rw [h.tailOk, hxl, List.getLast?_cons_cons]
      · exact List.nodup_cons.2 ⟨hnin, h.nodup⟩
      · intro c hc
        exact List.mem_cons_of_mem _ (h.curMem c hc)
      · intro _ hc
        exact h.curSet hlne hc


/-! ## `insert_song_after`: splice characterization (claim C6) -/

theorem head?_append_cons {α : Type} (l1 : List α) (i : α) (A : List α) :
    (l1 ++ i :: A).head? = (l1 ++ [i]).head? := by
  cases l1 <;> rfl

theorem mem_insert_middle {c i n : Nat} {l1 l2 : List Nat}
    (hc : c ∈ l1 ++ i :: l2) : c ∈ l1 ++ i :: n :: l2 := by
  rcases List.mem_append.1 hc with h1 | h2
  · exact List.mem_append_left _ h1
  · rcases List.mem_cons.1 h2 with hi | hl2
    · exact List.mem_append_right _ (by simp [hi])
    · exact List.mem_append_right _ (by simp [hl2])

theorem nodup_insert_middle {i n : Nat} {l1 l2 : List Nat}
    (hd : (l1 ++ i :: l2).Nodup) (hn : n ∉ l1 ++ i :: l2) :
    (l1 ++ i :: n :: l2).Nodup := by
  have e1 : l1 ++ i :: n :: l2 = (l1 ++ [i]) ++ n :: l2 := by simp
  have e2 : l1 ++ i :: l2 = (l1 ++ [i]) ++ l2 := by simp
  rw [e1, (List.perm_middle).nodup_iff]
  rw [e2] at hd hn
  exact List.nodup_cons.2 ⟨fun hmem => hn (by simpa using hmem), hd⟩

theorem insAfterLoop_found_core {p : LinkedListPlaylist} {l l1 l2 : List Nat} {i : Nat}
    (h : PlInv p l) (hdec : l = l1 ++ i :: l2) (target : String) (song : Song)
    (hmatch : titleMatches p.nodes i target = true) (fuel : Nat) :
    ∃ p', insAfterLoop p target song (fuel + 1) (some i) = (true, p') ∧
      PlInv p' (l1 ++ i :: p.nodes.length :: l2) ∧
      (∀ j, j < p.nodes.length → songAtD p' j = songAtD p j) ∧
      songAtD p' p.nodes.length = song ∧
      p'.current_node = p.current_node ∧
      p'.size = p.size + 1 := by
  have hvalid : ∀ j ∈ l, j < p.nodes.length := seg_valid l none none h.links
  have hilt : i < p.nodes.length := hvalid i (by rw [hdec]; simp)
  have hsegl := h.links
  rw [hdec, seg_append] at hsegl
  simp only [Bool.and_eq_true] at hsegl
  obtain ⟨hl1, hiseg⟩ := hsegl
  obtain ⟨ndi, hndi, hprevi, hnexti, hl2seg⟩ := seg_cons_iff.1 hiseg
  have hmatch' : (pyLower ndi.song_data.title == pyLower target) = true := by
    rw [titleMatches, hndi] at hmatch
    exact hmatch
  have hnd := h.nodup
  rw [hdec] at hnd
  have hinin1 : i ∉ l1 := by
    intro hmem
    exact (List.nodup_append.1 hnd).2.2 hmem (by simp)
  have hnin : p.nodes.length ∉ l :=
    fun hmem => absurd (hvalid _ hmem) (by omega)
  cases hxl2 : l2 with
  | nil =>
    rw [hxl2] at hnexti
    have hnexti0 : ndi.next = none := by rw [hnexti]; rfl
    have hstep : insAfterLoop p target song (fuel + 1) (some i)
        = (true,
            { nodes := modifyIdx (p.nodes ++ [⟨song, ndi.next, some i⟩]) i
                (fun nd => { nd with next := some p.nodes.length }),
              head := p.head, tail := some p.nodes.length,
              current_node := p.current_node, size := p.size + 1 }) := by
      rw [insAfterLoop, hndi]
      simp only [hmatch', if_pos]
      rw [hnexti0]
      rfl
    set n := p.nodes.length with hn
    set newNode : SongNode := ⟨song, ndi.next, some i⟩ with hnew
    set nodes3 := modifyIdx (p.nodes ++ [newNode]) i
      (fun nd => { nd with next := some n }) with hnodes3
    have hacc_i : nodes3.get? i = some { ndi with next := some n } := by
      rw [hnodes3, get?_modifyIdx_self, List.get?_append hilt, hndi]
      rfl
    have hacc_n : nodes3.get? n = some newNode := by
      rw [hnodes3, get?_modifyIdx_ne _ _ _ _ (by omega), hn]
      exact List.get?_concat_length _ _
    have hacc_old : ∀ j, j < p.nodes.length → j ≠ i →
        nodes3.get? j = p.nodes.get? j := by
      intro j hj hji
      rw [hnodes3, get?_modifyIdx_ne _ _ _ _ hji, List.get?_append hj]
    refine ⟨_, hstep, ?_, ?_, ?_, rfl, rfl⟩
    · have hsegl1 : seg nodes3 none l1 (some i) = true := by
        refine seg_frame l1 none (some i) ?_ (by simpa using hl1)
        intro j hj
        exact hacc_old j (hvalid j (by rw [hdec]; exact List.mem_append_left _ hj))
          (fun hh => hinin1 (hh ▸ hj))
      have hsegin : seg nodes3 (lastOr l1 none) [i, n] none = true := by
        refine seg_cons_iff.2 ⟨{ ndi with next := some n }, hacc_i, hprevi, rfl, ?_⟩
        refine seg_cons_iff.2 ⟨newNode, hacc_n, rfl, ?_, rfl⟩
        rw [hnew]
        exact hnexti0
      have hlinks : seg nodes3 none (l1 ++ i :: n :: ([] : List Nat)) none = true := by
        have e : l1 ++ i :: n :: ([] : List Nat) = l1 ++ [i, n] := rfl
        rw [e, seg_append]
        simp only [Bool.and_eq_true]
        exact ⟨by simpa using hsegl1, by simpa using hsegin⟩
      refine ⟨hlinks, ?_, by simp, ?_, ?_, ?_, ?_⟩
      · show p.head = (l1 ++ i :: n :: ([] : List Nat)).head?
        rw [h.headOk, hdec, hxl2]
        exact (head?_append_cons l1 i [n]).symm
      · show p.size + 1 = (l1 ++ i :: n :: ([] : List Nat)).length
        rw [h.sizeOk, hdec, hxl2]
        simp
      · refine nodup_insert_middle ?_ ?_
        · rw [← hxl2, ← hdec]; exact h.nodup
        · rw [← hxl2, ← hdec]; exact hnin
      · intro c hc
        have := h.curMem c hc
        rw [hdec, hxl2] at this
        exact mem_insert_middle this
      · intro _ hc
        exact h.curSet (by rw [hdec]; simp) hc
    · intro j hj
      by_cases hji : j = i
      · subst hji
        show ((nodes3.get? j).map _).getD _ = ((p.nodes.get? j).map _).getD _
        rw [hnodes3, get?_modifyIdx_self, List.get?_append hj]
        cases hx : p.nodes.get? j <;> rfl
      · show ((nodes3.get? j).map _).getD _ = ((p.nodes.get? j).map _).getD _
        rw [hnodes3, get?_modifyIdx_ne _ _ _ _ hji, List.get?_append hj]
    · show ((nodes3.get? n).map _).getD _ = song
      rw [hacc_n]
      rfl
  | cons nx l2' =>
    rw [hxl2] at hnexti hl2seg
    have hnexti' : ndi.next = some nx := by rw [hnexti]; rfl
    obtain ⟨ndnx, hndnx, hprevnx, hnextnx, hl2seg'⟩ := seg_cons_iff.1 hl2seg
    have hnxlt : nx < p.nodes.length := hvalid nx (by rw [hdec, hxl2]; simp)
    have hnd2 : (i :: nx :: l2').Nodup := by
      have := (List.nodup_append.1 (by rw [hxl2] at hnd; exact hnd)).2.1
      exact this
    have hinx : i ≠ nx := by
      intro hh
      exact (List.nodup_cons.1 hnd2).1 (by simp [hh])
    have hinin2' : i ∉ l2' := by
      intro hmem
      exact (List.nodup_cons.1 hnd2).1 (by simp [hmem])
    have hnxnin2' : nx ∉ l2' :=
      (List.nodup_cons.1 (List.nodup_cons.1 hnd2).2).1
    have hnxnin1 : nx ∉ l1 := by
      intro hmem
      refine (List.nodup_append.1 (by rw [hxl2] at hnd; exact hnd)).2.2 hmem ?_
      simp
    have hstep : insAfterLoop p target song (fuel + 1) (some i)
        = (true,
            { nodes := modifyIdx
                (modifyIdx (p.nodes ++ [⟨song, ndi.next, some i⟩]) nx
                  (fun nd => { nd with previous := some p.nodes.length })) i
                (fun nd => { nd with next := some p.nodes.length }),
              head := p.head, tail := p.tail,
              current_node := p.current_node, size := p.size + 1 }) := by
      rw [insAfterLoop, hndi]
      simp only [hmatch', if_pos]
      rw [hnexti']
      rfl
    set n := p.nodes.length with hn
    set newNode : SongNode := ⟨song, ndi.next, some i⟩ with hnew
    set nodes2 := modifyIdx (p.nodes ++ [newNode]) nx
      (fun nd => { nd with previous := some n }) with hnodes2
    set nodes3 := modifyIdx nodes2 i (fun nd => { nd with next := some n }) with hnodes3
    have hacc_i : nodes3.get? i = some { ndi with next := some n } := by
      rw [hnodes3, get?_modifyIdx_self, hnodes2, get?_modifyIdx_ne _ _ _ _ hinx,
        List.get?_append hilt, hndi]
      rfl
    have hacc_nx : nodes3.get? nx = some { ndnx with previous := some n } := by
      rw [hnodes3, get?_modifyIdx_ne _ _ _ _ (Ne.symm hinx), hnodes2,
        get?_modifyIdx_self, List.get?_append hnxlt, hndnx]
      rfl
    have hacc_n : nodes3.get? n = some newNode := by
      rw [hnodes3, get?_modifyIdx_ne _ _ _ _ (by omega), hnodes2,
        get?_modifyIdx_ne _ _ _ _ (by omega), hn]
      exact List.get?_concat_length _ _
    have hacc_old : ∀ j, j < p.nodes.length → j ≠ i → j ≠ nx →
        nodes3.get? j = p.nodes.get? j := by
      intro j hj hji hjnx
      rw [hnodes3, get?_modifyIdx_ne _ _ _ _ hji, hnodes2,
        get?_modifyIdx_ne _ _ _ _ hjnx, List.get?_append hj]
    refine ⟨_, hstep, ?_, ?_, ?_, rfl, rfl⟩
    · have hsegl1 : seg nodes3 none l1 (some i) = true := by
        refine seg_frame l1 none (some i) ?_ (by simpa using hl1)
        intro j hj
        refine hacc_old j (hvalid j (by rw [hdec]; exact List.mem_append_left _ hj))
          (fun hh => hinin1 (hh ▸ hj)) (fun hh => hnxnin1 (hh ▸ hj))
      have hsegl2' : seg nodes3 (some nx) l2' none = true := by
        refine seg_frame l2' (some nx) none ?_ hl2seg'
        intro j hj
        refine hacc_old j
          (hvalid j (by rw [hdec, hxl2]; refine List.mem_append_right _ ?_; simp [hj]))
          (fun hh => hinin2' (hh ▸ hj)) (fun hh => hnxnin2' (hh ▸ hj))
      have hsegin : seg nodes3 (lastOr l1 none) (i :: n :: nx :: l2') none = true := by
        refine seg_cons_iff.2 ⟨{ ndi with next := some n }, hacc_i, hprevi, rfl, ?_⟩
        refine seg_cons_iff.2 ⟨newNode, hacc_n, rfl, ?_, ?_⟩
        · rw [hnew]
          exact hnexti'
        · exact seg_cons_iff.2 ⟨{ ndnx with previous := some n }, hacc_nx, rfl, hnextnx,
            hsegl2'⟩
      have hlinks : seg nodes3 none (l1 ++ i :: n :: nx :: l2') none = true := by
        rw [seg_append]
        simp only [Bool.and_eq_true]
        exact ⟨by simpa using hsegl1, by simpa using hsegin⟩
      refine ⟨hlinks, ?_, ?_, ?_, ?_, ?_, ?_⟩
      · show p.head = (l1 ++ i :: n :: nx :: l2').head?
        rw [h.headOk, hdec, hxl2, head?_append_cons l1 i (nx :: l2'),
          head?_append_cons l1 i (n :: nx :: l2')]
      · show p.tail = (l1 ++ i :: n :: nx :: l2').getLast?
        rw [h.tailOk, hdec, hxl2,
          List.getLast?_append_of_ne_nil _ (by simp),
          List.getLast?_append_of_ne_nil _ (by simp),
          List.getLast?_cons_cons, List.getLast?_cons_cons, List.getLast?_cons_cons]
      · show p.size + 1 = (l1 ++ i :: n :: nx :: l2').length
        rw [h.sizeOk, hdec, hxl2]
        simp
        omega
      · refine nodup_insert_middle ?_ ?_
        · rw [← hxl2, ← hdec]; exact h.nodup
        · rw [← hxl2, ← hdec]; exact hnin
      · intro c hc
        have := h.curMem c hc
        rw [hdec, hxl2] at this
        exact mem_insert_middle this
      · intro _ hc
        exact h.curSet (by rw [hdec]; simp) hc
    · intro j hj
      by_cases hji : j = i
      · subst hji
        show ((nodes3.get? j).map _).getD _ = ((p.nodes.get? j).map _).getD _
        rw [hacc_i, hndi]
        rfl
      · by_cases hjnx : j = nx
        · subst hjnx
          show ((nodes3.get? j).map _).getD _ = ((p.nodes.get? j).map _).getD _
          rw [hacc_nx, hndnx]
          rfl
        · show ((nodes3.get? j).map _).getD _ = ((p.nodes.get? j).map _).getD _
          rw [hacc_old j hj hji hjnx]
    · show ((nodes3.get? n).map _).getD _ = song
      rw [hacc_n]
      rfl

theorem first_match_split (P : Nat → Bool) :
    ∀ l : List Nat, ¬ (∀ j ∈ l, P j = false) →
      ∃ l1 i l2, l = l1 ++ i :: l2 ∧ (∀ j ∈ l1, P j = false) ∧ P i = true := by
  intro l
  induction l with
  | nil => intro hcon; exact absurd (fun j hj => absurd hj (List.not_mem_nil j)) hcon
  | cons a t ih =>
    intro hcon
    cases hPa : P a with
    | true =>
      exact ⟨[], a, t, rfl, fun j hj => absurd hj (List.not_mem_nil j), hPa⟩
    | false =>
      have ht : ¬ (∀ j ∈ t, P j = false) := by
        intro hall
        refine hcon ?_
        intro j hj
        rcases List.mem_cons.1 hj with hja | hjt
        · rw [hja]; exact hPa
        · exact hall j hjt
      obtain ⟨l1, i, l2, hdec, hl1, hi⟩ := ih ht
      refine ⟨a :: l1, i, l2, by rw [hdec]; rfl, ?_, hi⟩
      intro j hj
      rcases List.mem_cons.1 hj with hja | hjl1
      · rw [hja]; exact hPa
      · exact hl1 j hjl1

theorem insAfterLoop_nomatch {p : LinkedListPlaylist} (target : String) (song : Song) :
    ∀ (l2 : List Nat) (prv : Option Nat) (fuel : Nat),
      seg p.nodes prv l2 none = true → l2.length ≤ fuel →
      (∀ j ∈ l2, titleMatches p.nodes j target = false) →
      insAfterLoop p target song fuel (headOr l2 none) = (false, p) := by
  intro l2
  induction l2 with
  | nil =>
    intro prv fuel _ _ _
    cases fuel <;> rfl
  | cons i rest ih =>
    intro prv fuel hseg hfuel hnm
    obtain ⟨nd, hnd, _, hnext, hrest⟩ := seg_cons_iff.1 hseg
    cases fuel with
    | zero => exact absurd hfuel (by simp)
    | succ f =>
      show insAfterLoop p target song (f + 1) (some i) = (false, p)
      have hm : titleMatches p.nodes i target = false := hnm i (by simp)
      rw [titleMatches, hnd] at hm
      dsimp only at hm
      rw [insAfterLoop, hnd]
      dsimp only
      rw [if_neg (by rw [hm]; exact Bool.false_ne_true)]
      rw [hnext]
      exact ih (some i) f hrest (by simp only [List.length_cons] at hfuel; omega)
        (fun j hj => hnm j (by simp [hj]))

theorem insAfterLoop_reach {p : LinkedListPlaylist} {l : List Nat} (h : PlInv p l)
    (target : String) (song : Song) :
    ∀ (m1 l0 : List Nat) (i : Nat) (l2 : List Nat) (fuel : Nat),
      l = l0 ++ (m1 ++ i :: l2) →
      (∀ j ∈ m1, titleMatches p.nodes j target = false) →
      (m1 ++ i :: l2).length ≤ fuel →
      ∃ f', f' + 1 ≤ fuel ∧
        insAfterLoop p target song fuel (headOr (m1 ++ i :: l2) none)
          = insAfterLoop p target song (f' + 1) (some i) := by
  intro m1
  induction m1 with
  | nil =>
    intro l0 i l2 fuel _ _ hfuel
    cases fuel with
    | zero => exact absurd hfuel (by simp)
    | succ f => exact ⟨f, le_refl _, rfl⟩
  | cons x m1' ih =>
    intro l0 i l2 fuel hdec hnm hfuel
    have hdec' : l = (l0 ++ [x]) ++ (m1' ++ i :: l2) := by rw [hdec]; simp
    have hsegl := h.links
    rw [hdec, seg_append] at hsegl
    simp only [Bool.and_eq_true] at hsegl
    obtain ⟨_, hxseg⟩ := hsegl
    obtain ⟨ndx, hndx, _, hnextx, _⟩ := seg_cons_iff.1 hxseg
    cases fuel with
    | zero => exact absurd hfuel (by simp)
    | succ f =>
      have hm : titleMatches p.nodes x target = false := hnm x (by simp)
      rw [titleMatches, hndx] at hm
      dsimp only at hm
      have hstep : insAfterLoop p target song (f + 1) (some x)
          = insAfterLoop p target song f (headOr (m1' ++ i :: l2) none) := by
        rw [insAfterLoop, hndx]
        dsimp only
        rw [if_neg (by rw [hm]; exact Bool.false_ne_true)]
        rw [hnextx]
        simp only [List.append_eq, headOr_append]
      obtain ⟨f', hf', heq⟩ := ih (l0 ++ [x]) i l2 f hdec'
        (fun j hj => hnm j (by simp [hj]))
        (by simp only [List.length_cons, List.length_append] at hfuel ⊢; omega)
      exact ⟨f', by omega, by rw [show headOr ((x :: m1') ++ i :: l2) none = some x from rfl,
        hstep, heq]⟩

/-- C6: `insert_song_after` on a well-formed playlist.  If the playlist is
empty or no node's title matches the target case-insensitively, it returns
`false` with the playlist unchanged; otherwise it returns `true` and forward
traversal places the new song immediately after the first matching node, the
tail is updated when the match was the tail, and the rest of the playlist
(size bookkeeping aside) is preserved. -/
theorem insert_song_after_spec {p : LinkedListPlaylist} {l : List Nat}
    (h : PlInv p l) (target : String) (song : Song) :
    ((∀ j ∈ l, titleMatches p.nodes j target = false) →
      insert_song_after p target song = (false, p)) ∧
    (∀ l1 i l2, l = l1 ++ i :: l2 →
      (∀ j ∈ l1, titleMatches p.nodes j target = false) →
      titleMatches p.nodes i target = true →
      ∃ p', insert_song_after p target song = (true, p') ∧
        forwardSongs p'
          = l1.map (songAtD p) ++ songAtD p i :: song :: l2.map (songAtD p) ∧
        (l2 = [] → p'.tail = some p.nodes.length) ∧
        p'.size = p.size + 1 ∧
        p'.current_node = p.current_node ∧
        PlInv p' (l1 ++ i :: p.nodes.length :: l2)) := by
  constructor
  · intro hnm
    by_cases hemp : p.head = none
    · rw [insert_song_after, if_pos hemp]
    · rw [insert_song_after, if_neg hemp]
      have hstart : p.head = headOr l none := by rw [h.headOk, headOr_none_eq]
      rw [hstart]
      exact insAfterLoop_nomatch target song l none p.nodes.length h.links
        (seg_length_le h.links h.nodup) hnm
  · intro l1 i l2 hdec hnm hmi
    have hlne : l ≠ [] := by rw [hdec]; simp
    have hemp : ¬ p.head = none := inv_head_some_of_ne_nil h hlne
    have hstart : p.head = headOr l none := by rw [h.headOk, headOr_none_eq]
    obtain ⟨f', _, heq⟩ := insAfterLoop_reach h target song l1 [] i l2 p.nodes.length
      (by rw [hdec]; rfl) hnm
      (by rw [← hdec]; exact seg_length_le h.links h.nodup)
    obtain ⟨p', hres, hinv', hsongs, hnsong, hcur, hsize⟩ :=
      insAfterLoop_found_core h hdec target song hmi f'
    refine ⟨p', ?_, ?_, ?_, hsize, hcur, hinv'⟩
    · rw [insert_song_after, if_neg hemp, hstart, hdec]
      rw [← hdec, hdec] at heq ⊢
      rw [heq]
      exact hres
    · have hvalid : ∀ j ∈ l, j < p.nodes.length := seg_valid l none none h.links
      rw [forwardSongs, fwdChain_of_inv hinv']
      have h1 : l1.map (songAtD p') = l1.map (songAtD p) :=
        List.map_congr_left (fun j hj =>
          hsongs j (hvalid j (by rw [hdec]; exact List.mem_append_left _ hj)))
      have h2 : songAtD p' i = songAtD p i := hsongs i (hvalid i (by rw [hdec]; simp))
      have h3 : l2.map (songAtD p') = l2.map (songAtD p) :=
        List.map_congr_left (fun j hj =>
          hsongs j (hvalid j
            (by rw [hdec]; exact List.mem_append_right _ (by simp [hj]))))
      rw [List.map_append, List.map_cons, List.map_cons, h1, h2, h3, hnsong]
    · intro hl2
      rw [hinv'.tailOk, hl2]
      simp

/-! ## `remove_song`: unlink characterization (claim C3) -/

theorem removeLoop_found_core {p : LinkedListPlaylist} {l l1 l2 : List Nat} {i : Nat}
    (h : PlInv p l) (hdec : l = l1 ++ i :: l2) (title : String)
    (hmatch : titleMatches p.nodes i title = true) (fuel : Nat) :
    ∃ p', removeLoop p title (fuel + 1) (some i) = (true, p') ∧
      PlInv p' (l1 ++ l2) ∧
      (∀ j, j < p.nodes.length → songAtD p' j = songAtD p j) ∧
      p'.current_node
        = (if p.current_node = some i then
            match headOr l2 none with
            | some nx => some nx
            | none => lastOr l1 none
          else p.current_node) ∧
      p'.size = p.size - 1 := by
  have hvalid : ∀ j ∈ l, j < p.nodes.length := seg_valid l none none h.links
  have hilt : i < p.nodes.length := hvalid i (by rw [hdec]; simp)
  have hsegl := h.links
  rw [hdec, seg_append] at hsegl
  simp only [Bool.and_eq_true] at hsegl
  obtain ⟨hl1, hiseg⟩ := hsegl
  obtain ⟨ndi, hndi, hprevi, hnexti, hl2seg⟩ := seg_cons_iff.1 hiseg
  have hmatch' : (pyLower ndi.song_data.title == pyLower title) = true := by
    rw [titleMatches, hndi] at hmatch
    exact hmatch
  have hnd := h.nodup
  rw [hdec] at hnd
  have hinin1 : i ∉ l1 := by
    intro hmem
    exact (List.nodup_append.1 hnd).2.2 hmem (by simp)
  have hndrem : (l1 ++ l2).Nodup :=
    hnd.sublist (List.Sublist.append_left (List.sublist_cons_self i l2) l1)
  set cur' := (if p.current_node = some i then
      match ndi.next with
      | some nx => some nx
      | none =>
        match ndi.previous with
        | some pv => some pv
        | none => none
    else p.current_node) with hcurdef
  have hp1 : (if p.current_node = some i then
        match ndi.next with
        | some nx => { p with current_node := some nx }
        | none =>
          match ndi.previous with
          | some pv => { p with current_node := some pv }
          | none => { p with current_node := none }
      else p) = { p with current_node := cur' } := by
    rw [hcurdef]
    by_cases hci : p.current_node = some i
    · rw [if_pos hci, if_pos hci]
      cases ndi.next with
      | some nx => rfl
      | none =>
        cases ndi.previous with
        | some pv => rfl
        | none => rfl
    · rw [if_neg hci, if_neg hci]
  have hcurspec : cur'
      = (if p.current_node = some i then
          match headOr l2 none with
          | some nx => some nx
          | none => lastOr l1 none
        else p.current_node) := by
    rw [hcurdef]
    by_cases hci : p.current_node = some i
    · rw [if_pos hci, if_pos hci, hnexti, hprevi]
      cases headOr l2 none with
      | some nx => rfl
      | none =>
        cases hlo : lastOr l1 none with
        | some pv => rfl
        | none => rfl
    · rw [if_neg hci, if_neg hci]
  have hcurmem : ∀ c, cur' = some c → (p.current_node = some i → c ∈ l1 ++ l2) ∧
      (¬ p.current_node = some i → c ∈ l) := by
    intro c hc
    constructor
    · intro hci
      rw [hcurspec, if_pos hci] at hc
      cases hh2 : headOr l2 none with
      | some nx =>
        rw [hh2] at hc
        injection hc with hc
        subst hc
        refine List.mem_append_right _ ?_
        cases l2 with
        | nil => cases hh2
        | cons a t =>
          injection hh2 with hh2
          simp [hh2]
      | none =>
        rw [hh2] at hc
        cases hh1 : lastOr l1 none with
        | none => rw [hh1] at hc; cases hc
        | some pv =>
          rw [hh1] at hc
          injection hc with hc
          subst hc
          refine List.mem_append_left _ ?_
          rw [lastOr_none_eq] at hh1
          exact List.mem_of_mem_getLast? hh1
    · intro hci
      rw [hcurspec, if_neg hci] at hc
      exact h.curMem c hc
  rw [removeLoop, hndi]
  simp only [hmatch', if_pos]
  rw [hp1]
  rcases List.eq_nil_or_concat l1 with hxl1 | ⟨xs, pv, hxl1⟩
  · -- removed node is the head
    subst hxl1
    have hprev0 : ndi.previous = none := by rw [hprevi]; rfl
    cases hxl2 : l2 with
    | nil =>
      -- sole node: head and tail both cleared
      rw [hxl2] at hnexti
      have hnext0 : ndi.next = none := by rw [hnexti]; rfl
      rw [hprev0, hnext0]
      dsimp only
      refine ⟨_, rfl, ?_, ?_, ?_, rfl⟩
      · have hsz : p.size = 1 := by
          rw [h.sizeOk, hdec, hxl2]
          rfl
        have hcn : cur' = none := by
          rw [hcurspec]
          by_cases hci : p.current_node = some i
          · rw [if_pos hci, hxl2]
            rfl
          · rw [if_neg hci]
            cases hpc : p.current_node with
            | none => rfl
            | some c =>
              have := h.curMem c hpc
              rw [hdec, hxl2] at this
              simp at this
              exact absurd (by rw [hpc, this]) hci
        refine ⟨rfl, rfl, rfl, by simp [hsz], by simp, ?_, ?_⟩
        · intro c hc
          rw [hcn] at hc
          cases hc
        · intro hcon _
          exact hcon rfl
      · intro j _
        rfl
      · rw [hxl2] at hcurspec
        exact hcurspec
    | cons nx l2' =>
      -- head removed, successor becomes head
      rw [hxl2] at hnexti hl2seg
      have hnext' : ndi.next = some nx := by rw [hnexti]; rfl
      obtain ⟨ndnx, hndnx, hprevnx, hnextnx, hl2seg'⟩ := seg_cons_iff.1 hl2seg
      have hnxlt : nx < p.nodes.length := hvalid nx (by rw [hdec, hxl2]; simp)
      have hnd2 : (i :: nx :: l2').Nodup := by
        rw [hxl2] at hnd
        simpa using hnd
      have hnxnin2' : nx ∉ l2' := (List.nodup_cons.1 (List.nodup_cons.1 hnd2).2).1
      rw [hprev0, hnext']
      dsimp only
      simp only [setPrev, setNext]
      refine ⟨_, rfl, ?_, ?_, ?_, rfl⟩
      · have hacc_nx : (modifyIdx p.nodes nx
            (fun nd => { nd with previous := none })).get? nx
            = some { ndnx with previous := none } := by
          rw [get?_modifyIdx_self, hndnx]
          rfl
        have hacc_old : ∀ j, j < p.nodes.length → j ≠ nx →
            (modifyIdx p.nodes nx (fun nd => { nd with previous := none })).get? j
              = p.nodes.get? j := by
          intro j hj hjnx
          rw [get?_modifyIdx_ne _ _ _ _ hjnx]
        have hlinks : seg (modifyIdx p.nodes nx (fun nd => { nd with previous := none }))
            none (nx :: l2') none = true := by
          refine seg_cons_iff.2 ⟨{ ndnx with previous := none }, hacc_nx, rfl, hnextnx, ?_⟩
          refine seg_frame l2' (some nx) none ?_ hl2seg'
          intro j hj
          exact hacc_old j (hvalid j (by rw [hdec, hxl2]; simp [hj]))
            (fun hh => hnxnin2' (hh ▸ hj))
        refine ⟨hlinks, rfl, ?_, ?_, ?_, ?_, ?_⟩
        · show p.tail = (([] : List Nat) ++ nx :: l2').getLast?
          rw [h.tailOk, hdec, hxl2]
          rw [List.nil_append, List.nil_append, List.getLast?_cons_cons]
        · show p.size - 1 = (([] : List Nat) ++ nx :: l2').length
          rw [h.sizeOk, hdec, hxl2]
          simp
        · simpa using (List.nodup_cons.1 hnd2).2
        · intro c hc
          by_cases hci : p.current_node = some i
          · have hmem := (hcurmem c hc).1 hci
            rw [hxl2] at hmem
            exact hmem
          · have hmem := (hcurmem c hc).2 hci
            rw [hdec, hxl2] at hmem
            simp only [List.nil_append, List.mem_cons] at hmem
            rcases hmem with hcc | hcc
            · exfalso
              subst hcc
              rw [hcurspec, if_neg hci] at hc
              exact hci hc
            · simp only [List.nil_append, List.mem_cons]
              exact hcc
        · intro _ hcn
          by_cases hci : p.current_node = some i
          · rw [hcurspec, if_pos hci, hxl2] at hcn
            cases hcn
          · rw [hcurspec, if_neg hci] at hcn
            exact h.curSet (by rw [hdec]; simp) hcn
      · intro j hj
        rw [songAtD, songAtD]
        dsimp only
        by_cases hjnx : j = nx
        · subst hjnx
          rw [get?_modifyIdx_self, hndnx]
          rfl
        · rw [get?_modifyIdx_ne _ _ _ _ hjnx]
      · rw [hxl2] at hcurspec
        exact hcurspec
  · -- removed node has a predecessor
    rw [List.concat_eq_append] at hxl1
    subst hxl1
    have hprev' : ndi.previous = some pv := by
      rw [hprevi, lastOr_append_singleton]
    have hl1' := hl1
    rw [seg_append] at hl1'
    simp only [Bool.and_eq_true] at hl1'
    obtain ⟨hxs, hpvseg⟩ := hl1'
    obtain ⟨ndpv, hndpv, hprevpv, hnextpv, _⟩ := seg_cons_iff.1 hpvseg
    have hpvlt : pv < p.nodes.length := hvalid pv (by rw [hdec]; simp)
    have hpvnin : pv ∉ xs := by
      have : (xs ++ [pv]).Nodup := (List.nodup_append.1 hnd).1
      intro hmem
      exact (List.nodup_append.1 this).2.2 hmem (by simp)
    have hnextpv' : ndpv.next = some i := by
      rw [hnextpv]
      rfl
    cases hxl2 : l2 with
    | nil =>
      -- tail removed, predecessor becomes tail
      rw [hxl2] at hnexti
      have hnext0 : ndi.next = none := by rw [hnexti]; rfl
      rw [hprev', hnext0]
      dsimp only
      simp only [setPrev, setNext]
      refine ⟨_, rfl, ?_, ?_, ?_, rfl⟩
      · have hacc_pv : (modifyIdx p.nodes pv
            (fun nd => { nd with next := none })).get? pv
            = some { ndpv with next := none } := by
          rw [get?_modifyIdx_self, hndpv]
          rfl
        have hacc_old : ∀ j, j < p.nodes.length → j ≠ pv →
            (modifyIdx p.nodes pv (fun nd => { nd with next := none })).get? j
              = p.nodes.get? j := by
          intro j hj hjpv
          rw [get?_modifyIdx_ne _ _ _ _ hjpv]
        have hlinks : seg (modifyIdx p.nodes pv (fun nd => { nd with next := none }))
            none (xs ++ [pv]) none = true := by
          rw [seg_append]
          simp only [Bool.and_eq_true]
          constructor
          · refine seg_frame xs none (headOr [pv] none) ?_ hxs
            intro j hj
            exact hacc_old j (hvalid j (by rw [hdec]; simp [hj]))
              (fun hh => hpvnin (hh ▸ hj))
          · exact seg_cons_iff.2 ⟨{ ndpv with next := none }, hacc_pv, hprevpv, rfl, rfl⟩
        refine ⟨by simpa using hlinks, ?_, ?_, ?_, ?_, ?_, ?_⟩
        · show p.head = ((xs ++ [pv]) ++ ([] : List Nat)).head?
          rw [h.headOk, hdec, hxl2, head?_append_cons]
          simp
        · show some pv = ((xs ++ [pv]) ++ ([] : List Nat)).getLast?
          simp
        · show p.size - 1 = ((xs ++ [pv]) ++ ([] : List Nat)).length
          rw [h.sizeOk, hdec, hxl2]
          simp
        · rw [hxl2] at hndrem
          simpa using hndrem
        · intro c hc
          by_cases hci : p.current_node = some i
          · have hmem := (hcurmem c hc).1 hci
            rw [hxl2] at hmem
            exact hmem
          · have hmem := (hcurmem c hc).2 hci
            rw [hdec, hxl2] at hmem
            have hcni : c ≠ i := by
              intro hh
              subst hh
              rw [hcurspec, if_neg hci] at hc
              exact hci hc
            simp only [List.append_nil]
            rcases List.mem_append.1 hmem with h1 | h2
            · exact h1
            · exact absurd (by simpa using h2) hcni
        · intro _ hcn
          by_cases hci : p.current_node = some i
          · rw [hcurspec, if_pos hci, hxl2] at hcn
            rw [show headOr ([] : List Nat) none = none from rfl] at hcn
            rw [lastOr_append_singleton] at hcn
            cases hcn
          · rw [hcurspec, if_neg hci] at hcn
            exact h.curSet (by rw [hdec]; simp) hcn
      · intro j hj
        rw [songAtD, songAtD]
        dsimp only
        by_cases hjpv : j = pv
        · subst hjpv
          rw [get?_modifyIdx_self, hndpv]
          rfl
        · rw [get?_modifyIdx_ne _ _ _ _ hjpv]
      · rw [hxl2] at hcurspec
        exact hcurspec
    | cons nx l2' =>
      -- interior node removed, predecessor and successor joined
      rw [hxl2] at hnexti hl2seg
      have hnext' : ndi.next = some nx := by rw [hnexti]; rfl
      obtain ⟨ndnx, hndnx, hprevnx, hnextnx, hl2seg'⟩ := seg_cons_iff.1 hl2seg
      have hnxlt : nx < p.nodes.length := hvalid nx (by rw [hdec, hxl2]; simp)
      have hdisj := (List.nodup_append.1 (by rw [hxl2] at hnd; exact hnd)).2.2
      have hnd2 : (i :: nx :: l2').Nodup :=
        (List.nodup_append.1 (by rw [hxl2] at hnd; exact hnd)).2.1
      have hnxnin2' : nx ∉ l2' := (List.nodup_cons.1 (List.nodup_cons.1 hnd2).2).1
      have hpvnx : pv ≠ nx := by
        intro hh
        exact hdisj (show pv ∈ xs ++ [pv] by simp) (by simp [hh])
      have hpvnin2' : pv ∉ l2' := by
        intro hmem
        exact hdisj (show pv ∈ xs ++ [pv] by simp) (by simp [hmem])
      rw [hprev', hnext']
      dsimp only
      simp only [setPrev, setNext]
      refine ⟨_, rfl, ?_, ?_, ?_, rfl⟩
      · set nodes2 := modifyIdx p.nodes pv (fun nd => { nd with next := some nx })
          with hnodes2
        set nodes3 := modifyIdx nodes2 nx (fun nd => { nd with previous := some pv })
          with hnodes3
        have hacc_pv : nodes3.get? pv = some { ndpv with next := some nx } := by
          rw [hnodes3, get?_modifyIdx_ne _ _ _ _ hpvnx, hnodes2, get?_modifyIdx_self,
            hndpv]
          rfl
        have hacc_nx : nodes3.get? nx = some { ndnx with previous := some pv } := by
          rw [hnodes3, get?_modifyIdx_self, hnodes2,
            get?_modifyIdx_ne _ _ _ _ (Ne.symm hpvnx), hndnx]
          rfl
        have hacc_old : ∀ j, j < p.nodes.length → j ≠ pv → j ≠ nx →
            nodes3.get? j = p.nodes.get? j := by
          intro j hj hjpv hjnx
          rw [hnodes3, get?_modifyIdx_ne _ _ _ _ hjnx, hnodes2,
            get?_modifyIdx_ne _ _ _ _ hjpv]
        have hsegxs : seg nodes3 none xs (some pv) = true := by
          refine seg_frame xs none (some pv) ?_ hxs
          intro j hj
          have hjnin : j ≠ pv := fun hh => hpvnin (hh ▸ hj)
          have hjnx : j ≠ nx := by
            intro hh
            exact hdisj (show j ∈ xs ++ [pv] by simp [hj]) (by simp [hh])
          exact hacc_old j (hvalid j (by rw [hdec]; simp [hj])) hjnin hjnx
        have hsegl2' : seg nodes3 (some nx) l2' none = true := by
          refine seg_frame l2' (some nx) none ?_ hl2seg'
          intro j hj
          have hji2 : j ≠ pv := fun hh => hpvnin2' (hh ▸ hj)
          have hjnx : j ≠ nx := fun hh => hnxnin2' (hh ▸ hj)
          exact hacc_old j (hvalid j (by rw [hdec, hxl2]; simp [hj])) hji2 hjnx
        have hlinks : seg nodes3 none ((xs ++ [pv]) ++ nx :: l2') none = true := by
          rw [seg_append]
          simp only [Bool.and_eq_true]
          constructor
          · rw [seg_append]
            simp only [Bool.and_eq_true]
            constructor
            · simpa using hsegxs
            · refine seg_cons_iff.2 ⟨{ ndpv with next := some nx }, hacc_pv, hprevpv,
                rfl, rfl⟩
          · rw [lastOr_append_singleton]
            refine seg_cons_iff.2 ⟨{ ndnx with previous := some pv }, hacc_nx, rfl,
              hnextnx, hsegl2'⟩
        refine ⟨hlinks, ?_, ?_, ?_, ?_, ?_, ?_⟩
        · show p.head = ((xs ++ [pv]) ++ nx :: l2').head?
          rw [h.headOk, hdec, hxl2,
            head?_append_left (xs ++ [pv]) (i :: nx :: l2') (by simp),
            head?_append_left (xs ++ [pv]) (nx :: l2') (by simp)]
        · show p.tail = ((xs ++ [pv]) ++ nx :: l2').getLast?
          rw [h.tailOk, hdec, hxl2,
            List.getLast?_append_of_ne_nil _ (by simp),
            List.getLast?_append_of_ne_nil _ (by simp),
            List.getLast?_cons_cons]
        · show p.size - 1 = ((xs ++ [pv]) ++ nx :: l2').length
          rw [h.sizeOk, hdec, hxl2]
          simp
        · rw [hxl2] at hndrem
          simpa using hndrem
        · intro c hc
          by_cases hci : p.current_node = some i
          · have hmem := (hcurmem c hc).1 hci
            rw [hxl2] at hmem
            exact hmem
          · have hmem := (hcurmem c hc).2 hci
            rw [hdec, hxl2] at hmem
            have hcni : c ≠ i := by
              intro hh
              subst hh
              rw [hcurspec, if_neg hci] at hc
              exact hci hc
            rcases List.mem_append.1 hmem with h1 | h2
            · exact List.mem_append_left _ h1
            · rcases List.mem_cons.1 h2 with h3 | h3
              · exact absurd h3 hcni
              · exact List.mem_append_right _ h3
        · intro _ hcn
          by_cases hci : p.current_node = some i
          · rw [hcurspec, if_pos hci, hxl2] at hcn
            cases hcn
          · rw [hcurspec, if_neg hci] at hcn
            exact h.curSet (by rw [hdec]; simp) hcn
      · intro j hj
        rw [songAtD, songAtD]
        dsimp only
        by_cases hjpv : j = pv
        · subst hjpv
          rw [get?_modifyIdx_ne _ _ _ _ hpvnx, get?_modifyIdx_self, hndpv]
          rfl
        · by_cases hjnx : j = nx
          · subst hjnx
            rw [get?_modifyIdx_self, get?_modifyIdx_ne _ _ _ _ hjpv, hndnx]
            rfl
          · rw [get?_modifyIdx_ne _ _ _ _ hjnx, get?_modifyIdx_ne _ _ _ _ hjpv]
      · rw [hxl2] at hcurspec
        exact hcurspec

theorem removeLoop_nomatch {p : LinkedListPlaylist} (title : String) :
    ∀ (l2 : List Nat) (prv : Option Nat) (fuel : Nat),
      seg p.nodes prv l2 none = true → l2.length ≤ fuel →
      (∀ j ∈ l2, titleMatches p.nodes j title = false) →
      removeLoop p title fuel (headOr l2 none) = (false, p) := by
  intro l2
  induction l2 with
  | nil =>
    intro prv fuel _ _ _
    cases fuel <;> rfl
  | cons i rest ih =>
    intro prv fuel hseg hfuel hnm
    obtain ⟨nd, hnd, _, hnext, hrest⟩ := seg_cons_iff.1 hseg
    cases fuel with
    | zero => exact absurd hfuel (by simp)
    | succ f =>
      show removeLoop p title (f + 1) (some i) = (false, p)
      have hm : titleMatches p.nodes i title = false := hnm i (by simp)
      rw [titleMatches, hnd] at hm
      dsimp only at hm
      rw [removeLoop, hnd]
      dsimp only
      rw [if_neg (by rw [hm]; exact Bool.false_ne_true)]
      rw [hnext]
      exact ih (some i) f hrest (by simp only [List.length_cons] at hfuel; omega)
        (fun j hj => hnm j (by simp [hj]))

theorem removeLoop_reach {p : LinkedListPlaylist} {l : List Nat} (h : PlInv p l)
    (title : String) :
    ∀ (m1 l0 : List Nat) (i : Nat) (l2 : List Nat) (fuel : Nat),
      l = l0 ++ (m1 ++ i :: l2) →
      (∀ j ∈ m1, titleMatches p.nodes j title = false) →
      (m1 ++ i :: l2).length ≤ fuel →
      ∃ f', f' + 1 ≤ fuel ∧
        removeLoop p title fuel (headOr (m1 ++ i :: l2) none)
          = removeLoop p title (f' + 1) (some i) := by
  intro m1
  induction m1 with
  | nil =>
    intro l0 i l2 fuel _ _ hfuel
    cases fuel with
    | zero => exact absurd hfuel (by simp)
    | succ f => exact ⟨f, le_refl _, rfl⟩
  | cons x m1' ih =>
    intro l0 i l2 fuel hdec hnm hfuel
    have hdec' : l = (l0 ++ [x]) ++ (m1' ++ i :: l2) := by rw [hdec]; simp
    have hsegl := h.links
    rw [hdec, seg_append] at hsegl
    simp only [Bool.and_eq_true] at hsegl
    obtain ⟨_, hxseg⟩ := hsegl
    obtain ⟨ndx, hndx, _, hnextx, _⟩ := seg_cons_iff.1 hxseg
    cases fuel with
    | zero => exact absurd hfuel (by simp)
    | succ f =>
      have hm : titleMatches p.nodes x title = false := hnm x (by simp)
      rw [titleMatches, hndx] at hm
      dsimp only at hm
      have hstep : removeLoop p title (f + 1) (some x)
          = removeLoop p title f (headOr (m1' ++ i :: l2) none) := by
        rw [removeLoop, hndx]
        dsimp only
        rw [if_neg (by rw [hm]; exact Bool.false_ne_true)]
        rw [hnextx]
        simp only [List.append_eq, headOr_append]
      obtain ⟨f', hf', heq⟩ := ih (l0 ++ [x]) i l2 f hdec'
        (fun j hj => hnm j (by simp [hj]))
        (by simp only [List.length_cons, List.length_append] at hfuel ⊢; omega)
      exact ⟨f', by omega, by rw [show headOr ((x :: m1') ++ i :: l2) none = some x from rfl,
        hstep, heq]⟩

/-- C3: `remove_song` on a well-formed playlist.  It removes the first node
whose title matches case-insensitively, re-links head/tail as needed; the
cursor moves to the removed node's successor, else its predecessor, else
becomes unset, exactly when it referenced the removed node, and is untouched
otherwise; removal from an empty playlist or with an unmatched title returns
`false` with the playlist unchanged. -/
theorem remove_song_spec {p : LinkedListPlaylist} {l : List Nat}
    (h : PlInv p l) (title : String) :
    ((∀ j ∈ l, titleMatches p.nodes j title = false) →
      remove_song p title = (false, p)) ∧
    (∀ l1 i l2, l = l1 ++ i :: l2 →
      (∀ j ∈ l1, titleMatches p.nodes j title = false) →
      titleMatches p.nodes i title = true →
      ∃ p', remove_song p title = (true, p') ∧
        forwardSongs p' = (l1 ++ l2).map (songAtD p) ∧
        p'.current_node
          = (if p.current_node = some i then
              match headOr l2 none with
              | some nx => some nx
              | none => lastOr l1 none
            else p.current_node) ∧
        p'.size = p.size - 1 ∧
        PlInv p' (l1 ++ l2)) := by
  constructor
  · intro hnm
    by_cases hemp : p.head = none
    · rw [remove_song, if_pos hemp]
    · rw [remove_song, if_neg hemp]
      have hstart : p.head = headOr l none := by rw [h.headOk, headOr_none_eq]
      rw [hstart]
      exact removeLoop_nomatch title l none p.nodes.length h.links
        (seg_length_le h.links h.nodup) hnm
  · intro l1 i l2 hdec hnm hmi
    have hlne : l ≠ [] := by rw [hdec]; simp
    have hemp : ¬ p.head = none := inv_head_some_of_ne_nil h hlne
    have hstart : p.head = headOr l none := by rw [h.headOk, headOr_none_eq]
    obtain ⟨f', _, heq⟩ := removeLoop_reach h title l1 [] i l2 p.nodes.length
      (by rw [hdec]; rfl) hnm
      (by rw [← hdec]; exact seg_length_le h.links h.nodup)
    obtain ⟨p', hres, hinv', hsongs, hcur, hsize⟩ :=
      removeLoop_found_core h hdec title hmi f'
    refine ⟨p', ?_, ?_, hcur, hsize, hinv'⟩
    · rw [remove_song, if_neg hemp, hstart, hdec]
      rw [← hdec, hdec] at heq ⊢
      rw [heq]
      exact hres
    · have hvalid : ∀ j ∈ l, j < p.nodes.length := seg_valid l none none h.links
      rw [forwardSongs, fwdChain_of_inv hinv']
      refine List.map_congr_left ?_
      intro j hj
      refine hsongs j (hvalid j ?_)
      rw [hdec]
      rcases List.mem_append.1 hj with h1 | h2
      · exact List.mem_append_left _ h1
      · exact List.mem_append_right _ (by simp [h2])

/-! ## `insert_song_before`: invariant preservation -/

theorem nodup_insert_at {n : Nat} {l1 l2 : List Nat}
    (hd : (l1 ++ l2).Nodup) (hn : n ∉ l1 ++ l2) : (l1 ++ n :: l2).Nodup :=
  (List.perm_middle.nodup_iff).2 (List.nodup_cons.2 ⟨hn, hd⟩)

theorem mem_insert_at {c n : Nat} {l1 l2 : List Nat}
    (hc : c ∈ l1 ++ l2) : c ∈ l1 ++ n :: l2 := by
  rcases List.mem_append.1 hc with h1 | h2
  · exact List.mem_append_left _ h1
  · exact List.mem_append_right _ (by simp [h2])

theorem insBeforeLoop_found_core {p : LinkedListPlaylist} {l l1 l2 : List Nat} {i : Nat}
    (h : PlInv p l) (hdec : l = l1 ++ i :: l2) (target : String) (song : Song)
    (hmatch : titleMatches p.nodes i target = true) (fuel : Nat) :
    ∃ p', insBeforeLoop p target song (fuel + 1) (some i) = (true, p') ∧
      PlInv p' (l1 ++ p.nodes.length :: i :: l2) := by
  have hvalid : ∀ j ∈ l, j < p.nodes.length := seg_valid l none none h.links
  have hilt : i < p.nodes.length := hvalid i (by rw [hdec]; simp)
  have hsegl := h.links
  rw [hdec, seg_append] at hsegl
  simp only [Bool.and_eq_true] at hsegl
  obtain ⟨hl1, hiseg⟩ := hsegl
  obtain ⟨ndi, hndi, hprevi, hnexti, hl2seg⟩ := seg_cons_iff.1 hiseg
  have hmatch' : (pyLower ndi.song_data.title == pyLower target) = true := by
    rw [titleMatches, hndi] at hmatch
    exact hmatch
  have hnd := h.nodup
  rw [hdec] at hnd
  have hinin1 : i ∉ l1 := by
    intro hmem
    exact (List.nodup_append.1 hnd).2.2 hmem (by simp)
  have hnin : p.nodes.length ∉ l :=
    fun hmem => absurd (hvalid _ hmem) (by omega)
  have hinin2 : i ∉ l2 := by
    have := (List.nodup_append.1 hnd).2.1
    exact (List.nodup_cons.1 this).1
  rw [insBeforeLoop, hndi]
  simp only [hmatch', if_pos]
  rcases List.eq_nil_or_concat l1 with hxl1 | ⟨xs, pv, hxl1⟩
  · -- match is the head: new node becomes the head
    subst hxl1
    have hprev0 : ndi.previous = none := by rw [hprevi]; rfl
    rw [hprev0]
    dsimp only
    simp only [setPrev, setNext]
    set n := p.nodes.length with hn
    set newNode : SongNode := ⟨song, some i, none⟩ with hnew
    set nodes3 := modifyIdx (p.nodes ++ [newNode]) i
      (fun nd => { nd with previous := some n }) with hnodes3
    refine ⟨_, rfl, ?_⟩
    have hacc_i : nodes3.get? i = some { ndi with previous := some n } := by
      rw [hnodes3, get?_modifyIdx_self, List.get?_append hilt, hndi]
      rfl
    have hacc_n : nodes3.get? n = some newNode := by
      rw [hnodes3, get?_modifyIdx_ne _ _ _ _ (by omega), hn]
      exact List.get?_concat_length _ _
    have hacc_old : ∀ j, j < p.nodes.length → j ≠ i →
        nodes3.get? j = p.nodes.get? j := by
      intro j hj hji
      rw [hnodes3, get?_modifyIdx_ne _ _ _ _ hji, List.get?_append hj]
    have hlinks : seg nodes3 none (([] : List Nat) ++ n :: i :: l2) none = true := by
      refine seg_cons_iff.2 ⟨newNode, hacc_n, rfl, rfl, ?_⟩
      refine seg_cons_iff.2 ⟨{ ndi with previous := some n }, hacc_i, rfl, hnexti, ?_⟩
      refine seg_frame l2 (some i) none ?_ hl2seg
      intro j hj
      exact hacc_old j (hvalid j (by rw [hdec]; simp [hj])) (fun hh => hinin2 (hh ▸ hj))
    refine ⟨hlinks, rfl, ?_, ?_, ?_, ?_, ?_⟩
    · show p.tail = (([] : List Nat) ++ n :: i :: l2).getLast?
      rw [h.tailOk, hdec]
      simp only [List.nil_append, List.getLast?_cons_cons]
    · show p.size + 1 = (([] : List Nat) ++ n :: i :: l2).length
      rw [h.sizeOk, hdec]
      simp
    · simp only [List.nil_append]
      refine List.nodup_cons.2 ⟨?_, by simpa using hnd⟩
      intro hmem
      exact hnin (by rw [hdec]; simpa using hmem)
    · intro c hc
      have := h.curMem c hc
      rw [hdec] at this
      simp only [List.nil_append] at this ⊢
      exact List.mem_cons_of_mem _ this
    · intro _ hc
      exact h.curSet (by rw [hdec]; simp) hc
  · -- match has a predecessor: splice between predecessor and match
    rw [List.concat_eq_append] at hxl1
    subst hxl1
    have hprev' : ndi.previous = some pv := by
      rw [hprevi, lastOr_append_singleton]
    have hl1' := hl1
    rw [seg_append] at hl1'
    simp only [Bool.and_eq_true] at hl1'
    obtain ⟨hxs, hpvseg⟩ := hl1'
    obtain ⟨ndpv, hndpv, hprevpv, hnextpv, _⟩ := seg_cons_iff.1 hpvseg
    have hpvlt : pv < p.nodes.length := hvalid pv (by rw [hdec]; simp)
    have hpvnin : pv ∉ xs := by
      have hx : (xs ++ [pv]).Nodup := (List.nodup_append.1 hnd).1
      intro hmem
      exact (List.nodup_append.1 hx).2.2 hmem (by simp)
    have hpvi : pv ≠ i := by
      intro hh
      exact hinin1 (by simp [hh])
    have hdisj := (List.nodup_append.1 hnd).2.2
    have hpvnin2 : pv ∉ l2 := by
      intro hmem
      exact hdisj (show pv ∈ xs ++ [pv] by simp) (by simp [hmem])
    rw [hprev']
    dsimp only
    simp only [setPrev, setNext]
    set n := p.nodes.length with hn
    set newNode : SongNode := ⟨song, some i, some pv⟩ with hnew
    set nodes2 := modifyIdx (p.nodes ++ [newNode]) pv
      (fun nd => { nd with next := some n }) with hnodes2
    set nodes3 := modifyIdx nodes2 i (fun nd => { nd with previous := some n })
      with hnodes3
    refine ⟨_, rfl, ?_⟩
    have hacc_i : nodes3.get? i = some { ndi with previous := some n } := by
      rw [hnodes3, get?_modifyIdx_self, hnodes2, get?_modifyIdx_ne _ _ _ _ hpvi.symm,
        List.get?_append hilt, hndi]
      rfl
    have hacc_pv : nodes3.get? pv = some { ndpv with next := some n } := by
      rw [hnodes3, get?_modifyIdx_ne _ _ _ _ hpvi, hnodes2, get?_modifyIdx_self,
        List.get?_append hpvlt, hndpv]
      rfl
    have hacc_n : nodes3.get? n = some newNode := by
      rw [hnodes3, get?_modifyIdx_ne _ _ _ _ (by omega), hnodes2,
        get?_modifyIdx_ne _ _ _ _ (by omega), hn]
      exact List.get?_concat_length _ _
    have hacc_old : ∀ j, j < p.nodes.length → j ≠ i → j ≠ pv →
        nodes3.get? j = p.nodes.get? j := by
      intro j hj hji hjpv
      rw [hnodes3, get?_modifyIdx_ne _ _ _ _ hji, hnodes2,
        get?_modifyIdx_ne _ _ _ _ hjpv, List.get?_append hj]
    have hsegxs : seg nodes3 none xs (some pv) = true := by
      refine seg_frame xs none (some pv) ?_ hxs
      intro j hj
      have hji : j ≠ i := by
        intro hh
        exact hinin1 (by simp [hh ▸ hj])
      exact hacc_old j (hvalid j (by rw [hdec]; simp [hj])) hji
        (fun hh => hpvnin (hh ▸ hj))
    have hsegl2 : seg nodes3 (some i) l2 none = true := by
      refine seg_frame l2 (some i) none ?_ hl2seg
      intro j hj
      exact hacc_old j (hvalid j (by rw [hdec]; simp [hj]))
        (fun hh => hinin2 (hh ▸ hj)) (fun hh => hpvnin2 (hh ▸ hj))
    have hlinks : seg nodes3 none ((xs ++ [pv]) ++ n :: i :: l2) none = true := by
      rw [seg_append]
      simp only [Bool.and_eq_true]
      constructor
      · rw [seg_append]
        simp only [Bool.and_eq_true]
        constructor
        · simpa using hsegxs
        · exact seg_cons_iff.2 ⟨{ ndpv with next := some n }, hacc_pv, hprevpv, rfl, rfl⟩
      · rw [lastOr_append_singleton]
        refine seg_cons_iff.2 ⟨newNode, hacc_n, rfl, rfl, ?_⟩
        exact seg_cons_iff.2 ⟨{ ndi with previous := some n }, hacc_i, rfl, hnexti,
          hsegl2⟩
    refine ⟨hlinks, ?_, ?_, ?_, ?_, ?_, ?_⟩
    · show p.head = ((xs ++ [pv]) ++ n :: i :: l2).head?
      rw [h.headOk, hdec,
        head?_append_left (xs ++ [pv]) (i :: l2) (by simp),
        head?_append_left (xs ++ [pv]) (n :: i :: l2) (by simp)]
    · show p.tail = ((xs ++ [pv]) ++ n :: i :: l2).getLast?
      rw [h.tailOk, hdec,
        List.getLast?_append_of_ne_nil _ (by simp),
        List.getLast?_append_of_ne_nil _ (by simp),
        List.getLast?_cons_cons]
    · show p.size + 1 = ((xs ++ [pv]) ++ n :: i :: l2).length
      rw [h.sizeOk, hdec]
      simp
      omega
    · refine nodup_insert_at ?_ ?_
      · rw [← hdec]; exact h.nodup
      · rw [← hdec]; exact hnin
    · intro c hc
      have := h.curMem c hc
      rw [hdec] at this
      exact mem_insert_at this
    · intro _ hc
      exact h.curSet (by rw [hdec]; simp) hc

theorem insBeforeLoop_nomatch {p : LinkedListPlaylist} (target : String) (song : Song) :
    ∀ (l2 : List Nat) (prv : Option Nat) (fuel : Nat),
      seg p.nodes prv l2 none = true → l2.length ≤ fuel →
      (∀ j ∈ l2, titleMatches p.nodes j target = false) →
      insBeforeLoop p target song fuel (headOr l2 none) = (false, p) := by
  intro l2
  induction l2 with
  | nil =>
    intro prv fuel _ _ _
    cases fuel <;> rfl
  | cons i rest ih =>
    intro prv fuel hseg hfuel hnm
    obtain ⟨nd, hnd, _, hnext, hrest⟩ := seg_cons_iff.1 hseg
    cases fuel with
    | zero => exact absurd hfuel (by simp)
    | succ f =>
      show insBeforeLoop p target song (f + 1) (some i) = (false, p)
      have hm : titleMatches p.nodes i target = false := hnm i (by simp)
      rw [titleMatches, hnd] at hm
      dsimp only at hm
      rw [insBeforeLoop, hnd]
      dsimp only
      rw [if_neg (by rw [hm]; exact Bool.false_ne_true)]
      rw [hnext]
      exact ih (some i) f hrest (by simp only [List.length_cons] at hfuel; omega)
        (fun j hj => hnm j (by simp [hj]))

theorem insBeforeLoop_reach {p : LinkedListPlaylist} {l : List Nat} (h : PlInv p l)
    (target : String) (song : Song) :
    ∀ (m1 l0 : List Nat) (i : Nat) (l2 : List Nat) (fuel : Nat),
      l = l0 ++ (m1 ++ i :: l2) →
      (∀ j ∈ m1, titleMatches p.nodes j target = false) →
      (m1 ++ i :: l2).length ≤ fuel →
      ∃ f', f' + 1 ≤ fuel ∧
        insBeforeLoop p target song fuel (headOr (m1 ++ i :: l2) none)
          = insBeforeLoop p target song (f' + 1) (some i) := by
  intro m1
  induction m1 with
  | nil =>
    intro l0 i l2 fuel _ _ hfuel
    cases fuel with
    | zero => exact absurd hfuel (by simp)
    | succ f => exact ⟨f, le_refl _, rfl⟩
  | cons x m1' ih =>
    intro l0 i l2 fuel hdec hnm hfuel
    have hdec' : l = (l0 ++ [x]) ++ (m1' ++ i :: l2) := by rw [hdec]; simp
    have hsegl := h.links
    rw [hdec, seg_append] at hsegl
    simp only [Bool.and_eq_true] at hsegl
    obtain ⟨_, hxseg⟩ := hsegl
    obtain ⟨ndx, hndx, _, hnextx, _⟩ := seg_cons_iff.1 hxseg
    cases fuel with
    | zero => exact absurd hfuel (by simp)
    | succ f =>
      have hm : titleMatches p.nodes x target = false := hnm x (by simp)
      rw [titleMatches, hndx] at hm
      dsimp only at hm
      have hstep : insBeforeLoop p target song (f + 1) (some x)
          = insBeforeLoop p target song f (headOr (m1' ++ i :: l2) none) := by
        rw [insBeforeLoop, hndx]
        dsimp only
        rw [if_neg (by rw [hm]; exact Bool.false_ne_true)]
        rw [hnextx]
        simp only [List.append_eq, headOr_append]
      obtain ⟨f', hf', heq⟩ := ih (l0 ++ [x]) i l2 f hdec'
        (fun j hj => hnm j (by simp [hj]))
        (by simp only [List.length_cons, List.length_append] at hfuel ⊢; omega)
      exact ⟨f', by omega, by rw [show headOr ((x :: m1') ++ i :: l2) none = some x from rfl,
        hstep, heq]⟩

/-! ## Invariant preservation for the remaining public operations -/

theorem insert_song_after_pres {p : LinkedListPlaylist} {l : List Nat}
    (h : PlInv p l) (target : String) (song : Song) :
    ∃ l', PlInv (insert_song_after p target song).2 l' := by
  by_cases hall : ∀ j ∈ l, titleMatches p.nodes j target = false
  · rw [(insert_song_after_spec h target song).1 hall]
    exact ⟨l, h⟩
  · obtain ⟨l1, i, l2, hdec, hl1, hi⟩ :=
      first_match_split (fun j => titleMatches p.nodes j target) l hall
    obtain ⟨p', hres, _, _, _, _, hinv'⟩ :=
      (insert_song_after_spec h target song).2 l1 i l2 hdec hl1 hi
    rw [hres]
    exact ⟨l1 ++ i :: p.nodes.length :: l2, hinv'⟩

theorem remove_song_pres {p : LinkedListPlaylist} {l : List Nat}
    (h : PlInv p l) (title : String) :
    ∃ l', PlInv (remove_song p title).2 l' := by
  by_cases hall : ∀ j ∈ l, titleMatches p.nodes j title = false
  · rw [(remove_song_spec h title).1 hall]
    exact ⟨l, h⟩
  · obtain ⟨l1, i, l2, hdec, hl1, hi⟩ :=
      first_match_split (fun j => titleMatches p.nodes j title) l hall
    obtain ⟨p', hres, _, _, _, hinv'⟩ :=
      (remove_song_spec h title).2 l1 i l2 hdec hl1 hi
    rw [hres]
    exact ⟨l1 ++ l2, hinv'⟩

theorem insert_song_before_pres {p : LinkedListPlaylist} {l : List Nat}
    (h : PlInv p l) (target : String) (song : Song) :
    ∃ l', PlInv (insert_song_before p target song).2 l' := by
  by_cases hall : ∀ j ∈ l, titleMatches p.nodes j target = false
  · by_cases hemp : p.head = none
    · rw [insert_song_before, if_pos hemp]
      exact ⟨l, h⟩
    · rw [insert_song_before, if_neg hemp]
      have hstart : p.head = headOr l none := by rw [h.headOk, headOr_none_eq]
      rw [hstart, insBeforeLoop_nomatch target song l none p.nodes.length h.links
        (seg_length_le h.links h.nodup) hall]
      exact ⟨l, h⟩
  · obtain ⟨l1, i, l2, hdec, hl1, hi⟩ :=
      first_match_split (fun j => titleMatches p.nodes j target) l hall
    have hlne : l ≠ [] := by rw [hdec]; simp
    have hemp : ¬ p.head = none := inv_head_some_of_ne_nil h hlne
    have hstart : p.head = headOr l none := by rw [h.headOk, headOr_none_eq]
    obtain ⟨f', _, heq⟩ := insBeforeLoop_reach h target song l1 [] i l2 p.nodes.length
      (by rw [hdec]; rfl) hl1
      (by rw [← hdec]; exact seg_length_le h.links h.nodup)
    obtain ⟨p', hres, hinv'⟩ := insBeforeLoop_found_core h hdec target song hi f'
    rw [insert_song_before, if_neg hemp, hstart, hdec]
    rw [← hdec, hdec] at heq ⊢
    rw [heq, hres]
    exact ⟨l1 ++ p.nodes.length :: i :: l2, hinv'⟩

theorem plinv_set_current_mem {p : LinkedListPlaylist} {l : List Nat} {c : Nat}
    (h : PlInv p l) (hc : c ∈ l) :
    PlInv { p with current_node := some c } l := by
  refine ⟨h.links, h.headOk, h.tailOk, h.sizeOk, h.nodup, ?_, ?_⟩
  · intro c' hcc
    injection hcc with e
    exact e ▸ hc
  · intro _ hh
    exact absurd hh (by simp)

theorem next_song_pres {p : LinkedListPlaylist} {l : List Nat} (h : PlInv p l) :
    ∃ l', PlInv (next_song p) l' := by
  rw [next_song]
  cases hc : p.current_node with
  | none => exact ⟨l, h⟩
  | some c =>
    dsimp only
    cases hget : p.nodes.get? c with
    | none => exact ⟨l, h⟩
    | some nd =>
      dsimp only
      cases hnx : nd.next with
      | none => exact ⟨l, h⟩
      | some nx =>
        refine ⟨l, plinv_set_current_mem h ?_⟩
        obtain ⟨l1, l2, hdec⟩ := List.append_of_mem (h.curMem c hc)
        have hsegl := h.links
        rw [hdec, seg_append] at hsegl
        simp only [Bool.and_eq_true] at hsegl
        obtain ⟨_, hcseg⟩ := hsegl
        obtain ⟨nd', hnd', _, hnext', _⟩ := seg_cons_iff.1 hcseg
        rw [hget] at hnd'
        injection hnd' with e
        subst e
        rw [hnx] at hnext'
        cases hl2 : l2 with
        | nil => rw [hl2] at hnext'; cases hnext'
        | cons a t =>
          rw [hl2] at hnext'
          injection hnext' with e2
          rw [hdec, hl2, e2]
          exact List.mem_append_right _ (by simp)

theorem previous_song_pres {p : LinkedListPlaylist} {l : List Nat} (h : PlInv p l) :
    ∃ l', PlInv (previous_song p) l' := by
  rw [previous_song]
  cases hc : p.current_node with
  | none => exact ⟨l, h⟩
  | some c =>
    dsimp only
    cases hget : p.nodes.get? c with
    | none => exact ⟨l, h⟩
    | some nd =>
      dsimp only
      cases hpv : nd.previous with
      | none => exact ⟨l, h⟩
      | some pv =>
        refine ⟨l, plinv_set_current_mem h ?_⟩
        obtain ⟨l1, l2, hdec⟩ := List.append_of_mem (h.curMem c hc)
        have hsegl := h.links
        rw [hdec, seg_append] at hsegl
        simp only [Bool.and_eq_true] at hsegl
        obtain ⟨_, hcseg⟩ := hsegl
        obtain ⟨nd', hnd', hprev', _, _⟩ := seg_cons_iff.1 hcseg
        rw [hget] at hnd'
        injection hnd' with e
        subst e
        rw [hpv] at hprev'
        rw [hdec]
        refine List.mem_append_left _ ?_
        rw [lastOr_none_eq] at hprev'
        exact List.mem_of_mem_getLast? hprev'.symm

theorem go_to_first_song_pres {p : LinkedListPlaylist} {l : List Nat} (h : PlInv p l) :
    ∃ l', PlInv (go_to_first_song p) l' := by
  rw [go_to_first_song]
  by_cases hemp : p.head = none
  · rw [if_pos hemp]
    exact ⟨l, h⟩
  · rw [if_neg hemp]
    refine ⟨l, h.links, h.headOk, h.tailOk, h.sizeOk, h.nodup, ?_, ?_⟩
    · intro c hc
      rw [h.headOk] at hc
      exact List.mem_of_mem_head? hc
    · intro _
      exact hemp

theorem go_to_last_song_pres {p : LinkedListPlaylist} {l : List Nat} (h : PlInv p l) :
    ∃ l', PlInv (go_to_last_song p) l' := by
  rw [go_to_last_song]
  by_cases hemp : p.head = none
  · rw [if_pos hemp]
    exact ⟨l, h⟩
  · rw [if_neg hemp]
    refine ⟨l, h.links, h.headOk, h.tailOk, h.sizeOk, h.nodup, ?_, ?_⟩
    · intro c hc
      rw [h.tailOk] at hc
      exact List.mem_of_mem_getLast? hc
    · intro hlne htl
      obtain ⟨xs, t0, hxl⟩ := (List.eq_nil_or_concat l).resolve_left hlne
      rw [h.tailOk, hxl] at htl
      simp at htl

theorem add_song_at_end_fresh {p : LinkedListPlaylist} (hemp : p.head = none)
    (hsz : p.size = 0) (song : Song) :
    PlInv (add_song_at_end p song) [p.nodes.length] := by
  rw [add_song_at_end_empty_eq p song hemp]
  refine ⟨?_, rfl, rfl, by simp [hsz], by simp, ?_, ?_⟩
  · exact seg_cons_iff.2 ⟨⟨song, none, none⟩, List.get?_concat_length _ _, rfl, rfl, rfl⟩
  · intro c hc
    injection hc with hc
    simp [hc]
  · intro _ hc
    cases hc

theorem foldl_add_song_at_end_pres :
    ∀ (songs : List Song) (q : LinkedListPlaylist) (lq : List Nat), PlInv q lq →
      ∃ l', PlInv (songs.foldl add_song_at_end q) l' := by
  intro songs
  induction songs with
  | nil => intro q lq h; exact ⟨lq, h⟩
  | cons s rest ih =>
    intro q lq h
    rw [List.foldl_cons]
    exact ih _ _ (add_song_at_end_inv h s)

theorem plinv_set_current_head {p : LinkedListPlaylist} {l : List Nat} (h : PlInv p l) :
    PlInv { p with current_node := p.head } l := by
  refine ⟨h.links, h.headOk, h.tailOk, h.sizeOk, h.nodup, ?_, ?_⟩
  · intro c hc
    rw [h.headOk] at hc
    exact List.mem_of_mem_head? hc
  · intro hlne
    show ¬ p.head = none
    rw [h.headOk]
    intro hh
    cases hl : l with
    | nil => exact hlne hl
    | cons a t => rw [hl] at hh; cases hh

theorem shuffle_playlist_pres {p : LinkedListPlaylist} {l : List Nat} (h : PlInv p l)
    (f : Nat → Nat × Nat) : ∃ l', PlInv (shuffle_playlist p f) l' := by
  rw [shuffle_playlist]
  by_cases hsz : p.size ≤ 1
  · rw [if_pos hsz]
    exact ⟨l, h⟩
  · rw [if_neg hsz]
    dsimp only
    generalize (List.range (p.size * 2)).foldl
      (fun arr k =>
        if (f k).1 % p.size ≠ (f k).2 % p.size then
          swapIdx arr ((f k).1 % p.size) ((f k).2 % p.size)
        else arr)
      (forwardSongs p) = S
    cases S with
    | nil =>
      refine ⟨[], rfl, rfl, rfl, rfl, List.nodup_nil, ?_, ?_⟩
      · intro c hc
        cases hc
      · intro hcon _
        exact hcon rfl
    | cons s rest =>
      rw [List.foldl_cons]
      have h1 : PlInv (add_song_at_end
          { p with head := none, tail := none, size := 0 } s)
          [p.nodes.length] := add_song_at_end_fresh rfl rfl s
      obtain ⟨l', hp1⟩ := foldl_add_song_at_end_pres rest _ _ h1
      exact ⟨l', plinv_set_current_head hp1⟩

theorem runOp_pres {p : LinkedListPlaylist} {l : List Nat} (h : PlInv p l) (op : PlOp)
    (hop : isReverseOp op = false) :
    ∃ p' l', runOp p op = some p' ∧ PlInv p' l' := by
  cases op with
  | addEnd s => exact ⟨_, _, rfl, add_song_at_end_inv h s⟩
  | addStart s => exact ⟨_, _, rfl, add_song_at_beginning_inv h s⟩
  | insAfter t s =>
    obtain ⟨l', hl'⟩ := insert_song_after_pres h t s
    exact ⟨_, l', rfl, hl'⟩
  | insBefore t s =>
    obtain ⟨l', hl'⟩ := insert_song_before_pres h t s
    exact ⟨_, l', rfl, hl'⟩
  | remove t =>
    obtain ⟨l', hl'⟩ := remove_song_pres h t
    exact ⟨_, l', rfl, hl'⟩
  | nextOp =>
    obtain ⟨l', hl'⟩ := next_song_pres h
    exact ⟨_, l', rfl, hl'⟩
  | prevOp =>
    obtain ⟨l', hl'⟩ := previous_song_pres h
    exact ⟨_, l', rfl, hl'⟩
  | goFirst =>
    obtain ⟨l', hl'⟩ := go_to_first_song_pres h
    exact ⟨_, l', rfl, hl'⟩
  | goLast =>
    obtain ⟨l', hl'⟩ := go_to_last_song_pres h
    exact ⟨_, l', rfl, hl'⟩
  | reverseOp fuel => cases hop
  | shuffleOp f =>
    obtain ⟨l', hl'⟩ := shuffle_playlist_pres h f
    exact ⟨_, l', rfl, hl'⟩

theorem runOps_fold_pres :
    ∀ (ops : List PlOp) (q : LinkedListPlaylist) (lq : List Nat), PlInv q lq →
      (∀ op ∈ ops, isReverseOp op = false) →
      ∃ p l', List.foldl (fun st op => st.bind (fun p => runOp p op)) (some q) ops
          = some p ∧ PlInv p l' := by
  intro ops
  induction ops with
  | nil => intro q lq h _; exact ⟨q, lq, rfl, h⟩
  | cons op rest ih =>
    intro q lq h hall
    rw [List.foldl_cons]
    obtain ⟨p', l', hres, hinv⟩ := runOp_pres h op (hall op (by simp))
    rw [show (some q).bind (fun p => runOp p op) = runOp q op from rfl, hres]
    exact ih p' l' hinv (fun o ho => hall o (by simp [ho]))

/-- C7: for every playlist state reachable from the empty playlist by any
sequence of add (at end / at start / insert-after / insert-before) and remove
operations, the `size` counter equals the number of nodes reachable by
forward traversal from `head` and the number reachable by backward traversal
from `tail`. -/
theorem playlist_size_consistency (ops : List PlOp) (p : LinkedListPlaylist)
    (hops : ∀ op ∈ ops, isAddRemove op = true)
    (hrun : runOps ops = some p) :
    p.size = (fwdChain p).length ∧ p.size = (bwdChain p).length := by
  have hnorev : ∀ op ∈ ops, isReverseOp op = false := by
    intro op hop
    have hh := hops op hop
    cases op <;> first | rfl | cases hh
  obtain ⟨p', l', hres, hinv⟩ := runOps_fold_pres ops emptyPlaylist [] plinv_empty hnorev
  rw [runOps, hres] at hrun
  injection hrun with e
  subst e
  rw [fwdChain_of_inv hinv, bwdChain_of_inv hinv, hinv.sizeOk]
  simp

/-- Witness for C7: the three-`add_song_at_end` run. -/
theorem playlist_size_consistency_witness :
    playlistABC.size = (fwdChain playlistABC).length ∧
      playlistABC.size = (bwdChain playlistABC).length :=
  playlist_size_consistency [PlOp.addEnd songA, PlOp.addEnd songB, PlOp.addEnd songC]
    playlistABC
    (by intro op hop; simp only [List.mem_cons] at hop
        rcases hop with h | h | h | h
        · rw [h]; rfl
        · rw [h]; rfl
        · rw [h]; rfl
        · cases h)
    (by rfl)

/-- C9 counterexample: the claimed cursor invariant fails on a reachable
state.  Run: add A, B, C; go to last (cursor C); `reverse_playlist` (which
terminates here but corrupts the links, leaving nodes 2 and 1 in a forward
cycle and node 0 unreachable from the head); go to last again.  The cursor
now sits on node 0, which forward traversal from the head never visits. -/
theorem playlist_cursor_counterexample :
    ∃ p, runOps [PlOp.addEnd songA, PlOp.addEnd songB, PlOp.addEnd songC,
        PlOp.goLast, PlOp.reverseOp 10, PlOp.goLast] = some p ∧
      ¬ p.head = none ∧ p.current_node = some 0 ∧ 0 ∉ fwdChain p := by
  exact ⟨revStuckABC, rfl, by decide, rfl, by decide⟩

/-- C9 (corrected): for every playlist state reachable from the empty
playlist by the public operations *except* `reverse_playlist` (adds, inserts,
remove, next, previous, go-to-first, go-to-last, shuffle), the cursor is set
iff the playlist is non-empty, and when set it points at a node reachable by
forward traversal from `head`.  (`reverse_playlist` is excluded because it
corrupts the links: see `playlist_cursor_counterexample`.) -/
theorem playlist_cursor_invariant_no_reverse (ops : List PlOp)
    (p : LinkedListPlaylist)
    (hops : ∀ op ∈ ops, isReverseOp op = false)
    (hrun : runOps ops = some p) :
    (p.current_node = none ↔ p.head = none) ∧
      (∀ c, p.current_node = some c → c ∈ fwdChain p) := by
  obtain ⟨p', l', hres, hinv⟩ := runOps_fold_pres ops emptyPlaylist [] plinv_empty hops
  rw [runOps, hres] at hrun
  injection hrun with e
  subst e
  constructor
  · constructor
    · intro hcn
      by_cases hl : l' = []
      · rw [hinv.headOk, hl]
        rfl
      · exact absurd hcn (hinv.curSet hl)
    · intro hh
      have hl : l' = [] := inv_nil_of_head_none hinv hh
      cases hc : p'.current_node with
      | none => rfl
      | some c =>
        have := hinv.curMem c hc
        rw [hl] at this
        cases this
  · intro c hc
    rw [fwdChain_of_inv hinv]
    exact hinv.curMem c hc

/-- Witness for C9 (corrected): after adding one song, the cursor is set and
points into the forward chain. -/
theorem playlist_cursor_invariant_witness :
    ((add_song_at_end emptyPlaylist songA).current_node = none ↔
      (add_song_at_end emptyPlaylist songA).head = none) ∧
      (∀ c, (add_song_at_end emptyPlaylist songA).current_node = some c →
        c ∈ fwdChain (add_song_at_end emptyPlaylist songA)) :=
  playlist_cursor_invariant_no_reverse [PlOp.addEnd songA]
    (add_song_at_end emptyPlaylist songA)
    (by intro op hop; simp only [List.mem_cons] at hop
        rcases hop with h | h
        · rw [h]; rfl
        · cases h)
    (by rfl)

/-! ## `reverse_playlist` divergence (claim C4) -/

theorem findSongFrom_revNodesABC_cycles :
    ∀ fuel, findSongFrom revNodesABC songA fuel (some 2) = none ∧
      findSongFrom revNodesABC songA fuel (some 1) = none := by
  intro fuel
  induction fuel with
  | zero => exact ⟨rfl, rfl⟩
  | succ f ih =>
    constructor
    · have hstep : findSongFrom revNodesABC songA (f + 1) (some 2)
          = findSongFrom revNodesABC songA f (some 1) := by
        rw [findSongFrom]
        rw [show revNodesABC.get? 2 = some ⟨songC, some 1, none⟩ from rfl]
        dsimp only
        rw [if_neg (by decide)]
      rw [hstep]
      exact ih.2
    · have hstep : findSongFrom revNodesABC songA (f + 1) (some 1)
          = findSongFrom revNodesABC songA f (some 2) := by
        rw [findSongFrom]
        rw [show revNodesABC.get? 1 = some ⟨songB, some 2, some 0⟩ from rfl]
        dsimp only
        rw [if_neg (by decide)]
      rw [hstep]
      exact ih.1

theorem revFlip_none (nodes : List SongNode) (fuel : Nat) :
    revFlip nodes fuel none = some nodes := by
  cases fuel <;> rfl

theorem revFlip_playlistABC (g : Nat) :
    revFlip [⟨songA, some 1, none⟩, ⟨songB, some 2, some 0⟩, ⟨songC, none, some 1⟩]
      (g + 1) (some 2) = some revNodesABC := by
  have h1 : revFlip [⟨songA, some 1, none⟩, ⟨songB, some 2, some 0⟩,
      ⟨songC, none, some 1⟩] (g + 1) (some 2) = revFlip revNodesABC g none := rfl
  rw [h1, revFlip_none]

/-- C4 (code bug): on the playlist `[A, B, C]` with the cursor on the head
(the state produced by three `add_song_at_end` calls), `reverse_playlist`
never terminates, for any amount of fuel: after swapping head and tail the
link-flipping loop steps to `current.previous` — which is the *old* `next`,
`None` for the old tail — so only the old tail's links are flipped, leaving
nodes 2 and 1 in a forward cycle with node 0 (the cursor's song A)
unreachable; the cursor-relocation scan for song A then loops forever.
Hence `reverse(reverse(P))` computes nothing at all here, refuting the
involution under the claim's "for every playlist with any cursor
position". -/
theorem reverse_playlist_diverges (fuel : Nat) :
    reverse_playlist playlistABC fuel = none := by
  cases fuel with
  | zero => rfl
  | succ f =>
    have hP : playlistABC
        = { nodes := [⟨songA, some 1, none⟩, ⟨songB, some 2, some 0⟩,
            ⟨songC, none, some 1⟩], head := some 0, tail := some 2,
            current_node := some 0, size := 3 } := rfl
    rw [hP, reverse_playlist]
    rw [if_neg (by decide)]
    dsimp only
    rw [revFlip_playlistABC f]
    dsimp only
    rw [show revNodesABC.get? 0 = some ⟨songA, some 1, none⟩ from rfl]
    dsimp only
    rw [(findSongFrom_revNodesABC_cycles (f + 1)).1]

/-! ## Witnesses on the concrete playlist `[A, B, C]` -/

theorem plinv_playlistABC : PlInv playlistABC [0, 1, 2] := by
  refine ⟨by rfl, by rfl, by rfl, by rfl, by decide, ?_, ?_⟩
  · intro c hc
    have : c = 0 := by
      have h0 : playlistABC.current_node = some 0 := by rfl
      rw [h0] at hc
      injection hc with e
      exact e.symm
    simp [this]
  · intro _ hc
    have h0 : playlistABC.current_node = some 0 := by rfl
    rw [h0] at hc
    cases hc

/-- Witness for C3: removing `"b"` (case-insensitive match for song B) from
`[A, B, C]` with the cursor on A. -/
theorem remove_song_spec_witness :
    ∃ p', remove_song playlistABC "b" = (true, p') ∧
      forwardSongs p' = ([0] ++ [2]).map (songAtD playlistABC) ∧
      p'.current_node
        = (if playlistABC.current_node = some 1 then
            match headOr [2] none with
            | some nx => some nx
            | none => lastOr [0] none
          else playlistABC.current_node) ∧
      p'.size = playlistABC.size - 1 ∧
      PlInv p' ([0] ++ [2]) :=
  (remove_song_spec plinv_playlistABC "b").2 [0] 1 [2] (by rfl) (by decide) (by decide)

/-- Witness for C6: inserting a new song after `"b"` in `[A, B, C]`. -/
theorem insert_song_after_spec_witness :
    ∃ p', insert_song_after playlistABC "b" songA = (true, p') ∧
      forwardSongs p'
        = [0].map (songAtD playlistABC) ++ songAtD playlistABC 1 :: songA ::
            [2].map (songAtD playlistABC) ∧
      ([2] = ([] : List Nat) → p'.tail = some playlistABC.nodes.length) ∧
      p'.size = playlistABC.size + 1 ∧
      p'.current_node = playlistABC.current_node ∧
      PlInv p' ([0] ++ 1 :: playlistABC.nodes.length :: [2]) :=
  (insert_song_after_spec plinv_playlistABC "b" songA).2 [0] 1 [2] (by rfl)
    (by decide) (by decide)
